import Mathlib

set_option autoImplicit false

/- Verification of the Collections-C dynamic array (cc_array.c) and the
singly linked list (cc_slist.c) against their specification.  The C code
is shallowly embedded: size_t values become Nat, the float expansion
factor is stored as the exact rational value of the float (the default
2.0 is exactly representable) and the float arithmetic on it is modelled
bit-exactly (see the binary32 section below), the array buffer becomes
the list of its live elements (cells in [size, capacity) are unspecified
and unobservable), and the
list's node chain becomes an explicit heap mapping addresses to nodes.
A NULL-pointer dereference is modelled by an Option result, none meaning
the operation crashes.  Allocation success is an explicit Bool oracle
argument (alloc_ok), one per operation, mirroring whether malloc/calloc
returns NULL during that call. -/

/- Status codes of enum cc_stat. -/
inductive CC_Stat where
  | CC_OK
  | CC_ERR_ALLOC
  | CC_ERR_OUT_OF_RANGE
  | CC_ERR_MAX_CAPACITY
  | CC_ERR_VALUE_NOT_FOUND
  | CC_ERR_INVALID_RANGE
deriving DecidableEq

/-- Modelled from the spec: the maximum representable element count
CC_MAX_ELEMENTS is defined in a repository header that is not among the
provided sources; the spec only calls it "the maximum representable
element count".  For a 64-bit size_t we model it as SIZE_MAX - 1. -/
def CC_MAX_ELEMENTS : Nat := 2 ^ 64 - 2

/- struct cc_array_s.  The C struct tracks size, capacity, exp_factor and
a buffer of capacity slots whose first size slots are live; here buffer
holds exactly the live elements, so size is buffer.length. -/
structure CC_Array (α : Type) where
  capacity : Nat
  exp_factor : ℚ
  buffer : List α
deriving DecidableEq

def cc_array_size {α : Type} (ar : CC_Array α) : Nat :=
  ar.buffer.length

def cc_array_capacity {α : Type} (ar : CC_Array α) : Nat :=
  ar.capacity

/- Binary32 (float) arithmetic, modelled bit-exactly.  The C code computes
(size_t)(ar->capacity * ar->exp_factor) where capacity is size_t and
exp_factor is float: the usual arithmetic conversions convert the size_t
operand to float (round to nearest, ties to even), the product is computed
in float (again correctly rounded), and the cast truncates toward zero.
A binary32 value is represented exactly as an integer mantissa times a
power of two; rounding works on the exact rational n / d.  All arithmetic
below is Nat/Int so every function evaluates by kernel reduction. -/

/- Bit length (so that bitLen n - 1 = floor (log2 n) for n > 0), with an
explicit fuel argument for structural recursion. -/
def bitLenAux : Nat → Nat → Nat
  | 0, _ => 0
  | fuel + 1, n => if n = 0 then 0 else bitLenAux fuel (n / 2) + 1

def bitLen (n : Nat) : Nat :=
  bitLenAux n n

/- The exponent e with 2^e <= n / d < 2^(e+1), for n, d > 0. -/
def ratExp (n d : Nat) : Int :=
  let g : Int := (bitLen n : Int) - (bitLen d : Int)
  if 0 ≤ g then
    (if 2 ^ g.toNat * d ≤ n then g else g - 1)
  else
    (if d ≤ 2 ^ (-g).toNat * n then g else g - 1)

/- Round-to-nearest-even of the quotient n / d, as a natural number. -/
def rnddiv (n d : Nat) : Nat :=
  let t := n / d
  let r := n % d
  if d < 2 * r then t + 1
  else if 2 * r < d then t
  else if t % 2 = 0 then t else t + 1

/- Round-to-nearest-even of (n / d) / 2^k. -/
def roundAtScale (n d : Nat) (k : Int) : Nat :=
  if 0 ≤ k then rnddiv n (d * 2 ^ k.toNat)
  else rnddiv (n * 2 ^ (-k).toNat) d

/- The binary32 value nearest to n / d (d > 0), as a mantissa and a power
of two: the value is m * 2^k.  The scale puts 24 significant bits in the
mantissa; subnormal values are cut at scale -149 as in IEEE 754.  The
overflow-to-infinity threshold 2^128 is not modelled (casting an infinite
or out-of-range float to size_t is undefined behaviour anyway). -/
def roundF32Pos (n d : Nat) : Nat × Int :=
  if n = 0 then (0, 0)
  else
    let k := max (ratExp n d - 23) (-149)
    (roundAtScale n d k, k)

/- The binary32 value nearest to the dyadic mm * 2^ee. -/
def roundF32Dyn (mm : Nat) (ee : Int) : Nat × Int :=
  if 0 ≤ ee then roundF32Pos (mm * 2 ^ ee.toNat) 1
  else roundF32Pos mm (2 ^ (-ee).toNat)

/- Truncation of the dyadic mm * 2^ee toward zero, as a Nat ((size_t) cast
of a nonnegative float). -/
def truncDyadic (mm : Nat) (ee : Int) : Nat :=
  if 0 ≤ ee then mm * 2 ^ ee.toNat else mm / 2 ^ (-ee).toNat

/- size_t new_capacity = (size_t)(ar->capacity * ar->exp_factor):
the capacity is rounded to binary32, multiplied exactly by the (already
binary32) expansion factor, the product rounded back to binary32 and
truncated.  A negative factor would make the cast undefined behaviour;
the model returns 0 there (the value Int.toNat would give). -/
def expand_new_capacity {α : Type} (ar : CC_Array α) : Nat :=
  if ar.exp_factor.num < 0 then 0
  else
    let f1 := roundF32Pos ar.capacity 1
    let f2 := roundF32Pos ar.exp_factor.num.toNat ar.exp_factor.den
    let f3 := roundF32Dyn (f1.1 * f2.1) (f1.2 + f2.2)
    truncDyadic f3.1 f3.2

/- expand_capacity.  Note that the C code updates ar->capacity before the
malloc that may fail, so on CC_ERR_ALLOC the capacity field keeps the new
value while the buffer (live elements) is the old one. -/
def expand_capacity {α : Type} (alloc_ok : Bool) (ar : CC_Array α) :
    CC_Stat × CC_Array α :=
  if ar.capacity = CC_MAX_ELEMENTS then
    (CC_Stat.CC_ERR_MAX_CAPACITY, ar)
  else
    let ar1 :=
      if expand_new_capacity ar ≤ ar.capacity then
        { ar with capacity := CC_MAX_ELEMENTS }
      else
        { ar with capacity := expand_new_capacity ar }
    if alloc_ok then (CC_Stat.CC_OK, ar1) else (CC_Stat.CC_ERR_ALLOC, ar1)

def cc_array_add {α : Type} (alloc_ok : Bool) (ar : CC_Array α) (element : α) :
    CC_Stat × CC_Array α :=
  if cc_array_size ar ≥ ar.capacity then
    match expand_capacity alloc_ok ar with
    | (CC_Stat.CC_OK, ar1) =>
        (CC_Stat.CC_OK, { ar1 with buffer := ar1.buffer ++ [element] })
    | r => r
  else
    (CC_Stat.CC_OK, { ar with buffer := ar.buffer ++ [element] })

/- cc_array_add_at.  In the C guard the expression ar->size - 1 is a
size_t subtraction that wraps for size = 0, but that case is unreachable:
size = 0 with index = 0 was already taken by the index == size branch and
size = 0 with index different from 0 short-circuits on the first disjunct,
so the Nat truncated subtraction coincides with the C behaviour. -/
def cc_array_add_at {α : Type} (alloc_ok : Bool) (ar : CC_Array α)
    (element : α) (index : Nat) : CC_Stat × CC_Array α :=
  if index = cc_array_size ar then
    cc_array_add alloc_ok ar element
  else if (cc_array_size ar = 0 ∧ index ≠ 0) ∨ index > cc_array_size ar - 1 then
    (CC_Stat.CC_ERR_OUT_OF_RANGE, ar)
  else if cc_array_size ar ≥ ar.capacity then
    match expand_capacity alloc_ok ar with
    | (CC_Stat.CC_OK, ar1) =>
        (CC_Stat.CC_OK,
          { ar1 with buffer := ar1.buffer.take index ++ element :: ar1.buffer.drop index })
    | r => r
  else
    (CC_Stat.CC_OK,
      { ar with buffer := ar.buffer.take index ++ element :: ar.buffer.drop index })

/- cc_array_replace_at.  The out parameter is nullable (if (out) *out = ...);
out_null = true models passing NULL.  The returned Option is the value
stored through out, none when the caller opted out. -/
def cc_array_replace_at {α : Type} (ar : CC_Array α) (element : α)
    (index : Nat) (out_null : Bool) : CC_Stat × CC_Array α × Option α :=
  if index ≥ cc_array_size ar then
    (CC_Stat.CC_ERR_OUT_OF_RANGE, ar, none)
  else
    (CC_Stat.CC_OK, { ar with buffer := ar.buffer.set index element },
      if out_null then none else ar.buffer[index]?)

/- cc_array_get_at.  The C code stores through out unconditionally
(*out = ar->buffer[index]); passing NULL dereferences a null pointer,
modelled as the none (crash) result. -/
def cc_array_get_at {α : Type} (ar : CC_Array α) (index : Nat)
    (out_null : Bool) : Option (CC_Stat × Option α) :=
  if index ≥ cc_array_size ar then
    some (CC_Stat.CC_ERR_OUT_OF_RANGE, none)
  else if out_null then
    none
  else
    some (CC_Stat.CC_OK, ar.buffer[index]?)

def cc_array_index_of {α : Type} [DecidableEq α] (ar : CC_Array α)
    (element : α) : CC_Stat × Option Nat :=
  match ar.buffer.findIdx? (fun x => x = element) with
  | some i => (CC_Stat.CC_OK, some i)
  | none => (CC_Stat.CC_ERR_OUT_OF_RANGE, none)

def cc_array_remove {α : Type} [DecidableEq α] (ar : CC_Array α)
    (element : α) (out_null : Bool) : CC_Stat × CC_Array α × Option α :=
  match cc_array_index_of ar element with
  | (CC_Stat.CC_ERR_OUT_OF_RANGE, _) => (CC_Stat.CC_ERR_VALUE_NOT_FOUND, ar, none)
  | (_, some index) =>
      (CC_Stat.CC_OK,
        { ar with buffer := ar.buffer.take index ++ ar.buffer.drop (index + 1) },
        if out_null then none else some element)
  | (_, none) => (CC_Stat.CC_ERR_VALUE_NOT_FOUND, ar, none)

def cc_array_remove_at {α : Type} (ar : CC_Array α) (index : Nat)
    (out_null : Bool) : CC_Stat × CC_Array α × Option α :=
  if index ≥ cc_array_size ar then
    (CC_Stat.CC_ERR_OUT_OF_RANGE, ar, none)
  else
    (CC_Stat.CC_OK,
      { ar with buffer := ar.buffer.take index ++ ar.buffer.drop (index + 1) },
      if out_null then none else ar.buffer[index]?)

/- cc_array_subarray.  The sub array struct is calloc'ed, so every field
it does not explicitly set is zero; in particular exp_factor is 0. -/
def cc_array_subarray {α : Type} (alloc_ok : Bool) (ar : CC_Array α)
    (b e : Nat) : CC_Stat × Option (CC_Array α) :=
  if b > e ∨ e ≥ cc_array_size ar then
    (CC_Stat.CC_ERR_INVALID_RANGE, none)
  else if alloc_ok then
    (CC_Stat.CC_OK, some
      { capacity := e - b + 1
        exp_factor := 0
        buffer := (ar.buffer.drop b).take (e - b + 1) })
  else
    (CC_Stat.CC_ERR_ALLOC, none)

/- cc_array_reverse: the two-index swap loop.  swapIdx models the body
(tmp = buffer[i]; buffer[i] = buffer[j]; buffer[j] = tmp). -/
def swapIdx {α : Type} (l : List α) (i j : Nat) : List α :=
  match l[i]?, l[j]? with
  | some a, some b => (l.set i b).set j a
  | _, _ => l

def revLoop {α : Type} : List α → Nat → Nat → Nat → List α
  | l, _, _, 0 => l
  | l, i, j, k + 1 => revLoop (swapIdx l i j) (i + 1) (j - 1) k

def cc_array_reverse {α : Type} (ar : CC_Array α) : CC_Array α :=
  if cc_array_size ar = 0 then ar
  else
    { ar with
      buffer := revLoop ar.buffer 0 (cc_array_size ar - 1) (cc_array_size ar / 2) }

/- cc_array_trim_capacity.  Note the C code sets ar->capacity = ar->size,
not max(size, 1); only the number of copied slots uses max(size, 1). -/
def cc_array_trim_capacity {α : Type} (alloc_ok : Bool) (ar : CC_Array α) :
    CC_Stat × CC_Array α :=
  if cc_array_size ar = ar.capacity then
    (CC_Stat.CC_OK, ar)
  else if alloc_ok then
    (CC_Stat.CC_OK, { ar with capacity := cc_array_size ar })
  else
    (CC_Stat.CC_ERR_ALLOC, ar)

/- Helper lemmas about the dynamic array operations. -/

/- Facts about the binary32 model needed for the growth claims. -/

theorem bitLenAux_zero (fuel : Nat) : bitLenAux fuel 0 = 0 := by
  cases fuel <;> rfl

theorem bitLenAux_bounds : ∀ fuel n, n ≤ fuel → 0 < n →
    2 ^ (bitLenAux fuel n - 1) ≤ n ∧ n < 2 ^ bitLenAux fuel n := by
  intro fuel
  induction fuel with
  | zero => intro n h1 h2; omega
  | succ fuel ih =>
      intro n h1 h2
      simp only [bitLenAux, if_neg (show ¬ n = 0 by omega)]
      by_cases hsmall : n / 2 = 0
      · have hn1 : n = 1 := by omega
        rw [hsmall, bitLenAux_zero]
        subst hn1
        decide
      · have hle : n / 2 ≤ fuel := by omega
        obtain ⟨ihl, ihr⟩ := ih (n / 2) hle (by omega)
        constructor
        · show 2 ^ bitLenAux fuel (n / 2) ≤ n
          rcases hB : bitLenAux fuel (n / 2) with _ | b
          · simpa using h2
          · rw [hB] at ihl
            rw [pow_succ]
            have hb : 2 ^ (b + 1 - 1) = 2 ^ b := rfl
            rw [hb] at ihl
            omega
        · rw [pow_succ]
          omega

theorem bitLen_spec (n : Nat) (hn : 0 < n) :
    2 ^ (bitLen n - 1) ≤ n ∧ n < 2 ^ bitLen n :=
  bitLenAux_bounds n n le_rfl hn

theorem bitLen_eq (n a : Nat) (h1 : 2 ^ a ≤ n) (h2 : n < 2 ^ (a + 1)) :
    bitLen n = a + 1 := by
  have hpa : 0 < 2 ^ a := pow_pos (by norm_num) a
  obtain ⟨hl, hr⟩ := bitLen_spec n (by omega)
  by_contra hne
  rcases Nat.lt_or_ge (bitLen n) (a + 1) with hlt | hge
  · have : (2 : Nat) ^ bitLen n ≤ 2 ^ a :=
      Nat.pow_le_pow_right (by norm_num) (by omega)
    omega
  · have : (2 : Nat) ^ (a + 1) ≤ 2 ^ (bitLen n - 1) :=
      Nat.pow_le_pow_right (by norm_num) (by omega)
    omega

theorem bitLen_two_pow (j : Nat) : bitLen (2 ^ j) = j + 1 := by
  refine bitLen_eq (2 ^ j) j le_rfl ?_
  have : 0 < 2 ^ j := pow_pos (by norm_num) j
  rw [pow_succ]
  omega

theorem rnddiv_exact (n d : Nat) (hd : 0 < d) (hdvd : d ∣ n) :
    rnddiv n d = n / d := by
  obtain ⟨q, rfl⟩ := hdvd
  simp only [rnddiv, Nat.mul_mod_right]
  simp [hd]

theorem ratExp_two_pow {n : Nat} (j : Nat) (hn : 0 < n) :
    ratExp n (2 ^ j) = (bitLen n : Int) - 1 - (j : Int) := by
  obtain ⟨hl, hr⟩ := bitLen_spec n hn
  have ha1 : 1 ≤ bitLen n := by
    by_contra h
    have hb0 : bitLen n = 0 := by omega
    rw [hb0] at hr
    simp at hr
    omega
  simp only [ratExp, bitLen_two_pow]
  by_cases hg : 0 ≤ (bitLen n : Int) - ((j + 1 : Nat) : Int)
  · rw [if_pos hg]
    have htn : ((bitLen n : Int) - ((j + 1 : Nat) : Int)).toNat =
        bitLen n - (j + 1) := by omega
    have hcond : 2 ^ (bitLen n - (j + 1)) * 2 ^ j ≤ n := by
      rw [← pow_add]
      have hexp : bitLen n - (j + 1) + j = bitLen n - 1 := by omega
      rw [hexp]
      exact hl
    rw [htn, if_pos hcond]
    omega
  · rw [if_neg hg]
    have htn : (-((bitLen n : Int) - ((j + 1 : Nat) : Int))).toNat =
        j + 1 - bitLen n := by omega
    have hcond : 2 ^ j ≤ 2 ^ (j + 1 - bitLen n) * n := by
      have he : (2 : Nat) ^ j = 2 ^ (j + 1 - bitLen n) * 2 ^ (bitLen n - 1) := by
        rw [← pow_add]
        congr 1
        omega
      rw [he]
      exact Nat.mul_le_mul_left _ hl
    rw [htn, if_pos hcond]
    omega

theorem ratExp_one {n : Nat} (hn : 0 < n) :
    ratExp n 1 = (bitLen n : Int) - 1 := by
  have h := ratExp_two_pow 0 hn
  norm_num at h
  exact h

/- Exact cases of the scaled rounding: when the scaled quotient is an
integer, round-to-nearest-even returns it unchanged. -/

theorem roundAtScale_exact_nonneg (d q : Nat) (k : Int) (hd : 0 < d)
    (hk : 0 ≤ k) : roundAtScale (d * 2 ^ k.toNat * q) d k = q := by
  rw [roundAtScale, if_pos hk]
  have hd2 : 0 < d * 2 ^ k.toNat := Nat.mul_pos hd (pow_pos (by norm_num) _)
  rw [rnddiv_exact _ _ hd2 ⟨q, rfl⟩, Nat.mul_div_cancel_left q hd2]

theorem roundAtScale_exact_nonpos (n d q : Nat) (k : Int) (hd : 0 < d)
    (hk : k ≤ 0) (h : n * 2 ^ (-k).toNat = d * q) :
    roundAtScale n d k = q := by
  by_cases h0 : 0 ≤ k
  · have hk0 : k = 0 := le_antisymm hk h0
    subst hk0
    rw [roundAtScale, if_pos le_rfl]
    have hn : n = d * q := by
      rw [show (-(0 : Int)).toNat = 0 from rfl, pow_zero, Nat.mul_one] at h
      exact h
    rw [show ((0 : Int)).toNat = 0 from rfl, pow_zero, Nat.mul_one, hn,
      rnddiv_exact _ _ hd ⟨q, rfl⟩, Nat.mul_div_cancel_left q hd]
  · rw [roundAtScale, if_neg h0, h, rnddiv_exact _ _ hd ⟨q, rfl⟩,
      Nat.mul_div_cancel_left q hd]

theorem roundF32Pos_zero (d : Nat) : roundF32Pos 0 d = (0, 0) := by
  simp [roundF32Pos]

theorem roundF32Dyn_zero (e : Int) : roundF32Dyn 0 e = (0, 0) := by
  rw [roundF32Dyn]
  split <;> simp [roundF32Pos]

theorem truncDyadic_zero (e : Int) : truncDyadic 0 e = 0 := by
  rw [truncDyadic]
  split <;> simp

/- With the factor 0 the product is exactly 0, whatever the capacity:
floats multiply exactly by zero. -/
theorem expand_new_capacity_zero {α : Type} (ar : CC_Array α)
    (h : ar.exp_factor = 0) : expand_new_capacity ar = 0 := by
  have hnum : ar.exp_factor.num = 0 := by rw [h]; rfl
  simp [expand_new_capacity, hnum, roundF32Pos_zero, roundF32Dyn_zero,
    truncDyadic_zero]

/- For the default growth factor 2.0, the float computation is exact at
every capacity up to 2^24 (all of which are exactly representable in
binary32): both rounding steps are exact and the result is 2 * capacity,
the exact floor of capacity * 2.0. -/
theorem expand_new_capacity_two {α : Type} (ar : CC_Array α)
    (hf : ar.exp_factor = 2) (hc : ar.capacity ≤ 2 ^ 24) :
    expand_new_capacity ar = 2 * ar.capacity := by
  have hnum : ar.exp_factor.num = 2 := by rw [hf]; rfl
  have hden : ar.exp_factor.den = 1 := by rw [hf]; rfl
  have hf2a : (roundF32Pos (Int.toNat 2) 1).1 = 2 ^ 23 := by decide
  have hf2b : (roundF32Pos (Int.toNat 2) 1).2 = -22 := by decide
  simp only [expand_new_capacity, hnum, hden]
  rw [if_neg (by norm_num)]
  rw [hf2a, hf2b]
  rcases Nat.eq_zero_or_pos ar.capacity with hc0 | hcpos
  · rw [hc0]
    decide
  · obtain ⟨hl, hr⟩ := bitLen_spec ar.capacity hcpos
    revert hl hr
    generalize hadef : bitLen ar.capacity = a
    intro hl hr
    have ha1 : 1 ≤ a := by
      rcases Nat.eq_zero_or_pos a with h0 | h1
      · rw [h0] at hr
        simp at hr
        omega
      · exact h1
    rcases Nat.lt_or_ge a 25 with ha24 | hage
    · -- 1 <= a <= 24: the capacity is exactly representable in binary32
      have ha24' : a ≤ 24 := by omega
      have hcne : ¬ ar.capacity = 0 := by omega
      have hk1 : max (ratExp ar.capacity 1 - 23) (-149) = (a : Int) - 24 := by
        rw [ratExp_one hcpos, hadef]
        rw [max_eq_left (by omega)]
        omega
      have h1 : roundAtScale ar.capacity 1 ((a : Int) - 24) =
          ar.capacity * 2 ^ (24 - a) := by
        refine roundAtScale_exact_nonpos _ _ _ _ one_pos (by omega) ?_
        rw [Nat.one_mul, show (-(((a : Int)) - 24)).toNat = 24 - a by omega]
      have hstep1 : roundF32Pos ar.capacity 1 =
          (ar.capacity * 2 ^ (24 - a), (a : Int) - 24) := by
        simp only [roundF32Pos]
        rw [if_neg hcne, hk1, h1]
      have hs1a : (roundF32Pos ar.capacity 1).1 =
          ar.capacity * 2 ^ (24 - a) := congrArg Prod.fst hstep1
      have hs1b : (roundF32Pos ar.capacity 1).2 = (a : Int) - 24 :=
        congrArg Prod.snd hstep1
      rw [hs1a, hs1b]
      have hM : ar.capacity * 2 ^ (24 - a) * 2 ^ 23 =
          ar.capacity * 2 ^ (47 - a) := by
        rw [Nat.mul_assoc, ← pow_add]
        congr 2
        omega
      have hE : (a : Int) - 24 + -22 = (a : Int) - 46 := by omega
      rw [hM, hE]
      have hMpos : 0 < ar.capacity * 2 ^ (47 - a) :=
        Nat.mul_pos hcpos (pow_pos (by norm_num) _)
      have hMne : ¬ ar.capacity * 2 ^ (47 - a) = 0 := by
        exact Nat.pos_iff_ne_zero.mp hMpos
      have hdyn : roundF32Dyn (ar.capacity * 2 ^ (47 - a)) ((a : Int) - 46) =
          roundF32Pos (ar.capacity * 2 ^ (47 - a)) (2 ^ (46 - a)) := by
        rw [roundF32Dyn, if_neg (by omega)]
        rw [show (-(((a : Int)) - 46)).toNat = 46 - a by omega]
      have hblM : bitLen (ar.capacity * 2 ^ (47 - a)) = 47 := by
        have hlow : (2 : Nat) ^ 46 ≤ ar.capacity * 2 ^ (47 - a) := by
          have he : (2 : Nat) ^ 46 = 2 ^ (a - 1) * 2 ^ (47 - a) := by
            rw [← pow_add]
            congr 1
            omega
          rw [he]
          exact Nat.mul_le_mul_right _ hl
        have hhigh : ar.capacity * 2 ^ (47 - a) < 2 ^ (46 + 1) := by
          have he : (2 : Nat) ^ (46 + 1) = 2 ^ a * 2 ^ (47 - a) := by
            rw [← pow_add]
            congr 1
            omega
          rw [he]
          exact (Nat.mul_lt_mul_right (pow_pos (by norm_num) _)).mpr hr
        exact bitLen_eq _ 46 hlow hhigh
      have hk3 : max (ratExp (ar.capacity * 2 ^ (47 - a)) (2 ^ (46 - a)) - 23)
          (-149) = (a : Int) - 23 := by
        rw [ratExp_two_pow (46 - a) hMpos, hblM]
        rw [max_eq_left (by omega)]
        omega
      have h3 : roundAtScale (ar.capacity * 2 ^ (47 - a)) (2 ^ (46 - a))
          ((a : Int) - 23) = ar.capacity * 2 ^ (24 - a) := by
        rcases Nat.lt_or_ge a 24 with halt | hae
        · refine roundAtScale_exact_nonpos _ _ _ _ (pow_pos (by norm_num) _)
            (by omega) ?_
          rw [show (-(((a : Int)) - 23)).toNat = 23 - a by omega]
          have hx1 : ar.capacity * 2 ^ (47 - a) * 2 ^ (23 - a) =
              ar.capacity * 2 ^ (47 - a + (23 - a)) := by
            rw [Nat.mul_assoc, pow_add]
          have hx2 : 47 - a + (23 - a) = 46 - a + (24 - a) := by omega
          have hx3 : ar.capacity * 2 ^ (46 - a + (24 - a)) =
              2 ^ (46 - a) * (ar.capacity * 2 ^ (24 - a)) := by
            rw [pow_add]
            ring
          rw [hx1, hx2, hx3]
        · have ha24e : a = 24 := by omega
          subst ha24e
          have hform : ar.capacity * 2 ^ (47 - 24) =
              2 ^ (46 - 24) * 2 ^ ((1 : Int)).toNat * ar.capacity := by
            rw [show (47 - 24 : Nat) = 23 from rfl,
              show (46 - 24 : Nat) = 22 from rfl,
              show ((1 : Int)).toNat = 1 from rfl]
            ring
          rw [show ((24 : Nat) : Int) - 23 = 1 by norm_num, hform,
            roundAtScale_exact_nonneg _ _ 1 (pow_pos (by norm_num) _)
              (by norm_num)]
          rw [show (24 - 24 : Nat) = 0 from rfl, pow_zero, Nat.mul_one]
      have hstep3 : roundF32Pos (ar.capacity * 2 ^ (47 - a)) (2 ^ (46 - a)) =
          (ar.capacity * 2 ^ (24 - a), (a : Int) - 23) := by
        simp only [roundF32Pos]
        rw [if_neg hMne, hk3, h3]
      have hs3a : (roundF32Pos (ar.capacity * 2 ^ (47 - a)) (2 ^ (46 - a))).1 =
          ar.capacity * 2 ^ (24 - a) := congrArg Prod.fst hstep3
      have hs3b : (roundF32Pos (ar.capacity * 2 ^ (47 - a)) (2 ^ (46 - a))).2 =
          (a : Int) - 23 := congrArg Prod.snd hstep3
      rw [hdyn, hs3a, hs3b]
      rw [truncDyadic]
      by_cases h0 : 0 ≤ (a : Int) - 23
      · rw [if_pos h0]
        rw [show (((a : Int)) - 23).toNat = a - 23 by omega]
        rw [Nat.mul_assoc, ← pow_add]
        rw [show 24 - a + (a - 23) = 1 by omega]
        ring
      · rw [if_neg h0,
          show (-(((a : Int)) - 23)).toNat = 23 - a by omega]
        have hsplit : ar.capacity * 2 ^ (24 - a) =
            2 * ar.capacity * 2 ^ (23 - a) := by
          rw [show 24 - a = 23 - a + 1 by omega, pow_succ]
          ring
        rw [hsplit, Nat.mul_div_cancel _ (pow_pos (by norm_num) _)]
    · -- a = 25 forces capacity = 2^24 exactly
      have ha25e : a = 25 := by
        by_contra hgt
        have h26 : 26 ≤ a := by omega
        have h1 : (2 : Nat) ^ 25 ≤ 2 ^ (a - 1) :=
          Nat.pow_le_pow_right (by norm_num) (by omega)
        have h2 : (2 : Nat) ^ 24 < 2 ^ 25 := by norm_num
        omega
      have hc24 : ar.capacity = 2 ^ 24 := by
        rw [ha25e] at hl
        have h1 : (2 : Nat) ^ 24 ≤ ar.capacity := by
          rw [show (25 - 1 : Nat) = 24 from rfl] at hl
          exact hl
        omega
      rw [hc24]
      decide

theorem expand_capacity_cases {α : Type} (alloc_ok : Bool) (ar : CC_Array α) :
    (ar.capacity = CC_MAX_ELEMENTS ∧
      expand_capacity alloc_ok ar = (CC_Stat.CC_ERR_MAX_CAPACITY, ar)) ∨
    (ar.capacity ≠ CC_MAX_ELEMENTS ∧
      expand_capacity alloc_ok ar =
        ((if alloc_ok then CC_Stat.CC_OK else CC_Stat.CC_ERR_ALLOC),
         { ar with
           capacity :=
             if expand_new_capacity ar ≤ ar.capacity then CC_MAX_ELEMENTS
             else expand_new_capacity ar })) := by
  by_cases h : ar.capacity = CC_MAX_ELEMENTS
  · left
    refine ⟨h, ?_⟩
    simp [expand_capacity, h]
  · right
    refine ⟨h, ?_⟩
    simp only [expand_capacity, h, if_false]
    by_cases ha : alloc_ok <;> simp only [ha, if_true, if_false, Prod.mk.injEq,
      true_and, Bool.false_eq_true] <;> split <;> simp

theorem expand_capacity_buffer {α : Type} (alloc_ok : Bool) (ar : CC_Array α) :
    (expand_capacity alloc_ok ar).2.buffer = ar.buffer := by
  rcases expand_capacity_cases alloc_ok ar with ⟨_, h⟩ | ⟨_, h⟩ <;> simp [h]

theorem expand_capacity_size {α : Type} (alloc_ok : Bool) (ar : CC_Array α) :
    cc_array_size (expand_capacity alloc_ok ar).2 = cc_array_size ar := by
  simp [cc_array_size, expand_capacity_buffer]

theorem expand_capacity_fst_eq_max_iff {α : Type} (alloc_ok : Bool) (ar : CC_Array α) :
    (expand_capacity alloc_ok ar).1 = CC_Stat.CC_ERR_MAX_CAPACITY ↔
      ar.capacity = CC_MAX_ELEMENTS := by
  rcases expand_capacity_cases alloc_ok ar with ⟨hc, h⟩ | ⟨hc, h⟩
  · simp [h, hc]
  · simp only [h, hc, iff_false]
    by_cases ha : alloc_ok <;> simp [ha]

theorem expand_capacity_fst_ne_oor {α : Type} (alloc_ok : Bool) (ar : CC_Array α) :
    (expand_capacity alloc_ok ar).1 ≠ CC_Stat.CC_ERR_OUT_OF_RANGE := by
  rcases expand_capacity_cases alloc_ok ar with ⟨_, h⟩ | ⟨_, h⟩
  · simp [h]
  · simp only [h]
    by_cases ha : alloc_ok <;> simp [ha]

theorem expand_capacity_fst_eq_ok_iff {α : Type} (alloc_ok : Bool) (ar : CC_Array α) :
    (expand_capacity alloc_ok ar).1 = CC_Stat.CC_OK ↔
      ar.capacity ≠ CC_MAX_ELEMENTS ∧ alloc_ok = true := by
  rcases expand_capacity_cases alloc_ok ar with ⟨hc, h⟩ | ⟨hc, h⟩
  · simp [h, hc]
  · simp only [h, hc, ne_eq, not_false_eq_true, true_and]
    by_cases ha : alloc_ok <;> simp [ha]

theorem expand_capacity_snd_of_max {α : Type} (alloc_ok : Bool) (ar : CC_Array α)
    (h : ar.capacity = CC_MAX_ELEMENTS) : (expand_capacity alloc_ok ar).2 = ar := by
  simp [expand_capacity, h]

theorem expand_capacity_capacity_of_ne {α : Type} (alloc_ok : Bool) (ar : CC_Array α)
    (h : ar.capacity ≠ CC_MAX_ELEMENTS) :
    (expand_capacity alloc_ok ar).2.capacity =
      if expand_new_capacity ar ≤ ar.capacity then CC_MAX_ELEMENTS
      else expand_new_capacity ar := by
  rcases expand_capacity_cases alloc_ok ar with ⟨hc, _⟩ | ⟨_, hx⟩
  · exact absurd hc h
  · simp [hx]

theorem expand_capacity_capacity_ge {α : Type} (alloc_ok : Bool) (ar : CC_Array α)
    (hm : ar.capacity ≤ CC_MAX_ELEMENTS) :
    ar.capacity ≤ (expand_capacity alloc_ok ar).2.capacity := by
  rcases expand_capacity_cases alloc_ok ar with ⟨_, h⟩ | ⟨_, h⟩
  · simp [h]
  · simp only [h]
    split
    · exact hm
    · omega

theorem cc_array_add_cases {α : Type} (alloc_ok : Bool) (ar : CC_Array α) (element : α) :
    (cc_array_size ar < ar.capacity ∧
      cc_array_add alloc_ok ar element =
        (CC_Stat.CC_OK, { ar with buffer := ar.buffer ++ [element] })) ∨
    (cc_array_size ar ≥ ar.capacity ∧
      (((expand_capacity alloc_ok ar).1 = CC_Stat.CC_OK ∧
        cc_array_add alloc_ok ar element =
          (CC_Stat.CC_OK,
            { (expand_capacity alloc_ok ar).2 with
              buffer := (expand_capacity alloc_ok ar).2.buffer ++ [element] })) ∨
       ((expand_capacity alloc_ok ar).1 ≠ CC_Stat.CC_OK ∧
        cc_array_add alloc_ok ar element = expand_capacity alloc_ok ar))) := by
  by_cases htrig : cc_array_size ar ≥ ar.capacity
  · right
    refine ⟨htrig, ?_⟩
    rcases hx : expand_capacity alloc_ok ar with ⟨st, ar1⟩
    cases st <;>
      simp only [cc_array_add, htrig, if_true, ge_iff_le, hx] <;> simp
  · left
    refine ⟨by omega, ?_⟩
    simp [cc_array_add, htrig]

theorem cc_array_add_fst_ne_oor {α : Type} (alloc_ok : Bool) (ar : CC_Array α)
    (element : α) :
    (cc_array_add alloc_ok ar element).1 ≠ CC_Stat.CC_ERR_OUT_OF_RANGE := by
  rcases cc_array_add_cases alloc_ok ar element with ⟨_, h⟩ | ⟨_, ⟨_, h⟩ | ⟨_, h⟩⟩ <;>
    simp [h, expand_capacity_fst_ne_oor]

theorem cc_array_add_size_le {α : Type} (alloc_ok : Bool) (ar : CC_Array α)
    (element : α) (hsc : cc_array_size ar ≤ ar.capacity)
    (hm : ar.capacity ≤ CC_MAX_ELEMENTS) :
    cc_array_size (cc_array_add alloc_ok ar element).2 ≤
      (cc_array_add alloc_ok ar element).2.capacity := by
  rcases cc_array_add_cases alloc_ok ar element with
    ⟨hlt, h⟩ | ⟨hge, ⟨hst, h⟩ | ⟨hst, h⟩⟩
  · simp only [h, cc_array_size, List.length_append, List.length_cons,
      List.length_nil]
    simp only [cc_array_size] at hlt
    omega
  · have hne : ar.capacity ≠ CC_MAX_ELEMENTS :=
      ((expand_capacity_fst_eq_ok_iff alloc_ok ar).mp hst).1
    have hcap := expand_capacity_capacity_of_ne alloc_ok ar hne
    have hbuf := expand_capacity_buffer alloc_ok ar
    simp only [h, cc_array_size, List.length_append, List.length_cons,
      List.length_nil, hbuf, hcap]
    simp only [cc_array_size] at hsc hge
    split <;> omega
  · rw [h]
    calc cc_array_size (expand_capacity alloc_ok ar).2 = cc_array_size ar :=
          expand_capacity_size alloc_ok ar
      _ ≤ ar.capacity := hsc
      _ ≤ (expand_capacity alloc_ok ar).2.capacity :=
          expand_capacity_capacity_ge alloc_ok ar hm

theorem cc_array_add_at_eq_add {α : Type} (alloc_ok : Bool) (ar : CC_Array α)
    (element : α) (index : Nat) (h : index = cc_array_size ar) :
    cc_array_add_at alloc_ok ar element index = cc_array_add alloc_ok ar element := by
  simp [cc_array_add_at, h]

theorem cc_array_add_at_oor {α : Type} (alloc_ok : Bool) (ar : CC_Array α)
    (element : α) (index : Nat) (h : cc_array_size ar < index) :
    cc_array_add_at alloc_ok ar element index = (CC_Stat.CC_ERR_OUT_OF_RANGE, ar) := by
  have h1 : ¬ index = cc_array_size ar := by omega
  have h2 : (cc_array_size ar = 0 ∧ index ≠ 0) ∨ index > cc_array_size ar - 1 := by
    omega
  simp [cc_array_add_at, h1, h2]

theorem cc_array_add_at_lt_notrig {α : Type} (alloc_ok : Bool) (ar : CC_Array α)
    (element : α) (index : Nat) (h : index < cc_array_size ar)
    (htrig : cc_array_size ar < ar.capacity) :
    cc_array_add_at alloc_ok ar element index =
      (CC_Stat.CC_OK,
        { ar with buffer := ar.buffer.take index ++ element :: ar.buffer.drop index }) := by
  have h1 : ¬ index = cc_array_size ar := by omega
  have h2 : ¬ ((cc_array_size ar = 0 ∧ index ≠ 0) ∨ index > cc_array_size ar - 1) := by
    omega
  have h3 : ¬ cc_array_size ar ≥ ar.capacity := by omega
  simp [cc_array_add_at, h1, h2, h3]

theorem cc_array_add_at_lt_trig_ok {α : Type} (alloc_ok : Bool) (ar : CC_Array α)
    (element : α) (index : Nat) (h : index < cc_array_size ar)
    (htrig : ar.capacity ≤ cc_array_size ar)
    (hst : (expand_capacity alloc_ok ar).1 = CC_Stat.CC_OK) :
    cc_array_add_at alloc_ok ar element index =
      (CC_Stat.CC_OK,
        { (expand_capacity alloc_ok ar).2 with
          buffer := ar.buffer.take index ++ element :: ar.buffer.drop index }) := by
  have h1 : ¬ index = cc_array_size ar := by omega
  have h2 : ¬ ((cc_array_size ar = 0 ∧ index ≠ 0) ∨ index > cc_array_size ar - 1) := by
    omega
  have h3 : cc_array_size ar ≥ ar.capacity := htrig
  rcases hx : expand_capacity alloc_ok ar with ⟨st, ar1⟩
  have hbuf : ar1.buffer = ar.buffer := by
    have hb := expand_capacity_buffer alloc_ok ar
    rw [hx] at hb
    exact hb
  rw [hx] at hst
  simp only at hst
  subst hst
  simp [cc_array_add_at, h1, h2, h3, hx, hbuf]

theorem cc_array_add_at_lt_trig_fail {α : Type} (alloc_ok : Bool) (ar : CC_Array α)
    (element : α) (index : Nat) (h : index < cc_array_size ar)
    (htrig : ar.capacity ≤ cc_array_size ar)
    (hst : (expand_capacity alloc_ok ar).1 ≠ CC_Stat.CC_OK) :
    cc_array_add_at alloc_ok ar element index = expand_capacity alloc_ok ar := by
  have h1 : ¬ index = cc_array_size ar := by omega
  have h2 : ¬ ((cc_array_size ar = 0 ∧ index ≠ 0) ∨ index > cc_array_size ar - 1) := by
    omega
  have h3 : cc_array_size ar ≥ ar.capacity := htrig
  rcases hx : expand_capacity alloc_ok ar with ⟨st, ar1⟩
  rw [hx] at hst
  simp only [ne_eq] at hst
  cases st <;> simp_all [cc_array_add_at, h1, h2, h3, hx]

theorem cc_array_add_ok_buffer {α : Type} (alloc_ok : Bool) (ar : CC_Array α)
    (element : α) (h : (cc_array_add alloc_ok ar element).1 = CC_Stat.CC_OK) :
    (cc_array_add alloc_ok ar element).2.buffer = ar.buffer ++ [element] := by
  rcases cc_array_add_cases alloc_ok ar element with
    ⟨_, hx⟩ | ⟨_, ⟨_, hx⟩ | ⟨hst, hx⟩⟩
  · simp [hx]
  · simp [hx, expand_capacity_buffer]
  · rw [hx] at h
    exact absurd h hst

theorem cc_array_add_at_ok_buffer {α : Type} (alloc_ok : Bool) (ar : CC_Array α)
    (element : α) (index : Nat) (hidx : index < cc_array_size ar)
    (h : (cc_array_add_at alloc_ok ar element index).1 = CC_Stat.CC_OK) :
    (cc_array_add_at alloc_ok ar element index).2.buffer =
      ar.buffer.take index ++ element :: ar.buffer.drop index := by
  by_cases htrig : cc_array_size ar < ar.capacity
  · simp [cc_array_add_at_lt_notrig alloc_ok ar element index hidx htrig]
  · have htrig' : ar.capacity ≤ cc_array_size ar := by omega
    by_cases hok : (expand_capacity alloc_ok ar).1 = CC_Stat.CC_OK
    · simp [cc_array_add_at_lt_trig_ok alloc_ok ar element index hidx htrig' hok]
    · rw [cc_array_add_at_lt_trig_fail alloc_ok ar element index hidx htrig' hok] at h
      exact absurd h hok

theorem length_insert_take_drop {α : Type} (l : List α) (e : α) (i : Nat)
    (h : i ≤ l.length) : (l.take i ++ e :: l.drop i).length = l.length + 1 := by
  simp only [List.length_append, List.length_take, List.length_cons,
    List.length_drop]
  omega

theorem getElem_insert_self {α : Type} (l : List α) (e : α) (i : Nat)
    (h : i ≤ l.length) : (l.take i ++ e :: l.drop i)[i]? = some e := by
  rw [List.getElem?_append_right]
  · simp [List.length_take, Nat.min_eq_left h]
  · simp only [List.length_take]
    omega

theorem getElem_insert_shift {α : Type} (l : List α) (e : α) (i j : Nat)
    (hi : i ≤ l.length) (hij : i ≤ j) :
    (l.take i ++ e :: l.drop i)[j + 1]? = l[j]? := by
  rw [List.getElem?_append_right]
  · have h1 : j + 1 - (l.take i).length = (j - i) + 1 := by
      simp only [List.length_take]
      omega
    rw [h1, List.getElem?_cons_succ, List.getElem?_drop]
    congr 1
    omega
  · simp only [List.length_take]
    omega

/-- C1 (amended): when add or add_at triggers an expansion, the new capacity
is the program's float computation (size_t)((float)capacity * exp_factor),
modelled bit-exactly by expand_new_capacity; if that value does not exceed
the old capacity the capacity is clamped to CC_MAX_ELEMENTS; the expansion
fails with CC_ERR_MAX_CAPACITY exactly when the capacity is already
CC_MAX_ELEMENTS; the resulting state never has capacity < size (no silent
wrap); and for the default growth factor 2.0 the float computation agrees
with the exact floor(capacity * growth_factor) = 2 * capacity at every
capacity up to 2^24 (all capacities exactly representable in binary32) -
beyond that the two can differ (claim_C1_counterexample). -/
theorem claim_C1 {α : Type} (ar : CC_Array α) (element : α) (index : Nat)
    (alloc_ok : Bool) (htrig : cc_array_size ar = ar.capacity)
    (hm : ar.capacity ≤ CC_MAX_ELEMENTS) :
    ((cc_array_add alloc_ok ar element).1 = CC_Stat.CC_ERR_MAX_CAPACITY ↔
       ar.capacity = CC_MAX_ELEMENTS) ∧
    (ar.capacity ≠ CC_MAX_ELEMENTS →
      (ar.capacity < expand_new_capacity ar →
        (cc_array_add alloc_ok ar element).2.capacity =
          expand_new_capacity ar) ∧
      (expand_new_capacity ar ≤ ar.capacity →
        (cc_array_add alloc_ok ar element).2.capacity = CC_MAX_ELEMENTS)) ∧
    cc_array_size (cc_array_add alloc_ok ar element).2 ≤
      (cc_array_add alloc_ok ar element).2.capacity ∧
    (ar.exp_factor = 2 → ar.capacity ≤ 2 ^ 24 →
      expand_new_capacity ar = 2 * ar.capacity ∧
      expand_new_capacity ar = (⌊(ar.capacity : ℚ) * ar.exp_factor⌋).toNat) ∧
    (index < cc_array_size ar →
      (cc_array_add_at alloc_ok ar element index).1 =
        (cc_array_add alloc_ok ar element).1 ∧
      (cc_array_add_at alloc_ok ar element index).2.capacity =
        (cc_array_add alloc_ok ar element).2.capacity ∧
      cc_array_size (cc_array_add_at alloc_ok ar element index).2 ≤
        (cc_array_add_at alloc_ok ar element index).2.capacity) := by
  have hge : cc_array_size ar ≥ ar.capacity := by omega
  have hfst : (cc_array_add alloc_ok ar element).1 = (expand_capacity alloc_ok ar).1 := by
    rcases cc_array_add_cases alloc_ok ar element with
      ⟨hlt, _⟩ | ⟨_, ⟨hst, hx⟩ | ⟨_, hx⟩⟩
    · omega
    · rw [hx, hst]
    · rw [hx]
  have hcap : (cc_array_add alloc_ok ar element).2.capacity =
      (expand_capacity alloc_ok ar).2.capacity := by
    rcases cc_array_add_cases alloc_ok ar element with
      ⟨hlt, _⟩ | ⟨_, ⟨_, hx⟩ | ⟨_, hx⟩⟩
    · omega
    · rw [hx]
    · rw [hx]
  refine ⟨?_, ?_, ?_, ?_, ?_⟩
  · rw [hfst]
    exact expand_capacity_fst_eq_max_iff alloc_ok ar
  · intro hne
    have hcc := expand_capacity_capacity_of_ne alloc_ok ar hne
    constructor
    · intro hlt
      rw [hcap, hcc, if_neg (by omega)]
    · intro hle
      rw [hcap, hcc, if_pos hle]
  · exact cc_array_add_size_le alloc_ok ar element (le_of_eq htrig) hm
  · intro hfac hcle
    have h2 := expand_new_capacity_two ar hfac hcle
    refine ⟨h2, ?_⟩
    rw [h2, hfac]
    have hq : ((ar.capacity : ℚ)) * 2 = ((2 * ar.capacity : ℕ) : ℚ) := by
      push_cast
      ring
    rw [hq, Int.floor_natCast, Int.toNat_natCast]
  · intro hidx
    by_cases hok : (expand_capacity alloc_ok ar).1 = CC_Stat.CC_OK
    · have hx := cc_array_add_at_lt_trig_ok alloc_ok ar element index hidx hge hok
      have hsz : cc_array_size (cc_array_add_at alloc_ok ar element index).2 =
          cc_array_size ar + 1 := by
        rw [hx]
        simp only [cc_array_size]
        exact length_insert_take_drop ar.buffer element index (le_of_lt hidx)
      refine ⟨?_, ?_, ?_⟩
      · rw [hx, hfst, hok]
      · rw [hx, hcap]
      · have hne : ar.capacity ≠ CC_MAX_ELEMENTS :=
          ((expand_capacity_fst_eq_ok_iff alloc_ok ar).mp hok).1
        have hcc := expand_capacity_capacity_of_ne alloc_ok ar hne
        have hcap2 : (cc_array_add_at alloc_ok ar element index).2.capacity =
            if expand_new_capacity ar ≤ ar.capacity then CC_MAX_ELEMENTS
            else expand_new_capacity ar := by
          rw [hx]
          exact hcc
        rw [hsz, hcap2]
        split <;> omega
    · have hx := cc_array_add_at_lt_trig_fail alloc_ok ar element index hidx hge hok
      have hy : cc_array_add alloc_ok ar element = expand_capacity alloc_ok ar := by
        rcases cc_array_add_cases alloc_ok ar element with
          ⟨hlt, _⟩ | ⟨_, ⟨hst, _⟩ | ⟨_, hz⟩⟩
        · omega
        · exact absurd hst hok
        · exact hz
      refine ⟨by rw [hx, hy], by rw [hx, hy], ?_⟩
      rw [hx, expand_capacity_size]
      have hc1 : cc_array_size ar ≤ ar.capacity := le_of_eq htrig
      have hc2 : ar.capacity ≤ (expand_capacity alloc_ok ar).2.capacity :=
        expand_capacity_capacity_ge alloc_ok ar hm
      omega

theorem cc_array_add_capacity_trig {α : Type} (alloc_ok : Bool) (ar : CC_Array α)
    (element : α) (hge : ar.capacity ≤ cc_array_size ar) :
    (cc_array_add alloc_ok ar element).2.capacity =
      (expand_capacity alloc_ok ar).2.capacity := by
  rcases cc_array_add_cases alloc_ok ar element with
    ⟨hlt, _⟩ | ⟨_, ⟨_, hx⟩ | ⟨_, hx⟩⟩
  · omega
  · rw [hx]
  · rw [hx]

def sampleFull2 : CC_Array Nat :=
  { capacity := 2, exp_factor := 2, buffer := [5, 7] }

theorem claim_C1_witness :
    cc_array_size sampleFull2 = sampleFull2.capacity ∧
    ((cc_array_add true sampleFull2 9).1 = CC_Stat.CC_ERR_MAX_CAPACITY ↔
      sampleFull2.capacity = CC_MAX_ELEMENTS) ∧
    expand_new_capacity sampleFull2 = 2 * sampleFull2.capacity :=
  ⟨by decide, (claim_C1 sampleFull2 9 0 true (by decide) (by decide)).1,
    ((claim_C1 sampleFull2 9 0 true (by decide) (by decide)).2.2.2.1
      (by rfl) (by decide)).1⟩

def highCap : CC_Array Nat :=
  { capacity := 2 ^ 24 + 1, exp_factor := 2, buffer := [] }

/-- C1 counterexample to the floor formula as claimed: at capacity
2^24 + 1 (reachable, e.g. via cc_array_trim_capacity, which sets capacity
to any reachable size) with the default growth factor 2.0, the program
computes (size_t)((float)(2^24 + 1) * 2.0f) = 2^25 = 33554432, because
converting 2^24 + 1 to binary32 rounds it (ties to even) down to 2^24;
the exact floor(capacity * growth_factor) is 2^25 + 2 = 33554434, so the
claimed equality new_capacity = floor(capacity * growth_factor) fails at
capacities not exactly representable in float. -/
theorem claim_C1_counterexample :
    expand_new_capacity highCap = 2 ^ 25 ∧
    (⌊(highCap.capacity : ℚ) * highCap.exp_factor⌋).toNat = 2 ^ 25 + 2 := by
  constructor
  · decide
  · have h : ((highCap.capacity : ℚ)) * highCap.exp_factor =
        (((2 ^ 25 + 2 : ℕ) : ℤ) : ℚ) := by
      show ((2 ^ 24 + 1 : ℕ) : ℚ) * (2 : ℚ) = (((2 ^ 25 + 2 : ℕ) : ℤ) : ℚ)
      push_cast
      norm_num
    rw [h, Int.floor_intCast, Int.toNat_natCast]

def sampleEmpty8 : CC_Array Nat :=
  { capacity := 8, exp_factor := 2, buffer := [] }

/-- C2: the claim says a successful trim_capacity leaves
capacity = max(size, 1), so at least 1.  The code instead assigns
ar->capacity = ar->size, so trimming an empty array yields capacity 0,
contradicting the claim and the function's own documentation ("the
capacity will never shrink below 1"). -/
theorem claim_C2_bug :
    (cc_array_trim_capacity true sampleEmpty8).1 = CC_Stat.CC_OK ∧
    (cc_array_trim_capacity true sampleEmpty8).2.capacity = 0 ∧
    max (cc_array_size (cc_array_trim_capacity true sampleEmpty8).2) 1 = 1 := by
  decide

def sampleFull8 : CC_Array Nat :=
  { capacity := 8, exp_factor := 2, buffer := [1, 2, 3, 4, 5, 6, 7, 8] }

/-- C3: the claim says an operation failing with AllocationFailure leaves
the observable state (including capacity) unchanged.  But expand_capacity
updates ar->capacity before the malloc that can fail, so cc_array_add on
a full array whose expansion allocation fails returns CC_ERR_ALLOC with
the capacity already grown from 8 to 16 (while the real buffer still has
8 slots - a latent out-of-bounds write for the next add). -/
theorem claim_C3_bug :
    (cc_array_add false sampleFull8 9).1 = CC_Stat.CC_ERR_ALLOC ∧
    sampleFull8.capacity = 8 ∧
    (cc_array_add false sampleFull8 9).2.capacity = 16 := by
  decide

theorem insert_at_length {α : Type} (l : List α) (e : α) :
    l.take l.length ++ e :: l.drop l.length = l ++ [e] := by
  simp

/-- C4: for the array, a successful add_at(e, i) with i <= size places e
at index i (get_at(i) returns e), shifts the elements previously at
[i, size) right by one, and increments size; add_at with i == size is
exactly append; and add_at fails with CC_ERR_OUT_OF_RANGE exactly when
i > size. -/
theorem claim_C4 {α : Type} (ar : CC_Array α) (element : α) (alloc_ok : Bool)
    (i : Nat) :
    ((cc_array_add_at alloc_ok ar element i).1 = CC_Stat.CC_ERR_OUT_OF_RANGE ↔
      cc_array_size ar < i) ∧
    (cc_array_add_at alloc_ok ar element (cc_array_size ar) =
      cc_array_add alloc_ok ar element) ∧
    (i ≤ cc_array_size ar →
      (cc_array_add_at alloc_ok ar element i).1 = CC_Stat.CC_OK →
      cc_array_size (cc_array_add_at alloc_ok ar element i).2 =
          cc_array_size ar + 1 ∧
      cc_array_get_at (cc_array_add_at alloc_ok ar element i).2 i false =
          some (CC_Stat.CC_OK, some element) ∧
      ∀ j, i ≤ j → j < cc_array_size ar →
        ((cc_array_add_at alloc_ok ar element i).2.buffer)[j + 1]? =
          ar.buffer[j]?) := by
  refine ⟨?_, cc_array_add_at_eq_add alloc_ok ar element _ rfl, ?_⟩
  · rcases Nat.lt_trichotomy i (cc_array_size ar) with hlt | heq | hgt
    · have hne : (cc_array_add_at alloc_ok ar element i).1 ≠
          CC_Stat.CC_ERR_OUT_OF_RANGE := by
        by_cases htrig : cc_array_size ar < ar.capacity
        · rw [cc_array_add_at_lt_notrig alloc_ok ar element i hlt htrig]
          simp
        · have htrig' : ar.capacity ≤ cc_array_size ar := by omega
          by_cases hok : (expand_capacity alloc_ok ar).1 = CC_Stat.CC_OK
          · rw [cc_array_add_at_lt_trig_ok alloc_ok ar element i hlt htrig' hok]
            simp
          · rw [cc_array_add_at_lt_trig_fail alloc_ok ar element i hlt htrig' hok]
            exact expand_capacity_fst_ne_oor alloc_ok ar
      exact ⟨fun h => absurd h hne, fun h => absurd h (by omega)⟩
    · rw [cc_array_add_at_eq_add alloc_ok ar element i heq]
      exact ⟨fun h => absurd h (cc_array_add_fst_ne_oor alloc_ok ar element),
        fun h => absurd heq (by omega)⟩
    · rw [cc_array_add_at_oor alloc_ok ar element i hgt]
      exact ⟨fun _ => hgt, fun _ => rfl⟩
  · intro hle hOK
    have hbuf : (cc_array_add_at alloc_ok ar element i).2.buffer =
        ar.buffer.take i ++ element :: ar.buffer.drop i := by
      rcases eq_or_lt_of_le hle with heq | hlt
      · rw [cc_array_add_at_eq_add alloc_ok ar element i heq] at hOK ⊢
        rw [cc_array_add_ok_buffer alloc_ok ar element hOK]
        have hi : i = ar.buffer.length := heq
        rw [hi, insert_at_length]
      · exact cc_array_add_at_ok_buffer alloc_ok ar element i hlt hOK
    have hsz : cc_array_size (cc_array_add_at alloc_ok ar element i).2 =
        cc_array_size ar + 1 := by
      simp only [cc_array_size, hbuf]
      exact length_insert_take_drop ar.buffer element i hle
    refine ⟨hsz, ?_, ?_⟩
    · have hguard : ¬ i ≥ cc_array_size (cc_array_add_at alloc_ok ar element i).2 := by
        omega
      simp only [cc_array_get_at, hguard, if_false, Bool.false_eq_true, hbuf]
      rw [getElem_insert_self ar.buffer element i hle]
    · intro j h1 h2
      rw [hbuf]
      exact getElem_insert_shift ar.buffer element i j hle h1

def sampleThree : CC_Array Nat :=
  { capacity := 8, exp_factor := 2, buffer := [10, 20, 30] }

theorem claim_C4_witness :
    1 ≤ cc_array_size sampleThree ∧
    (cc_array_add_at true sampleThree 99 1).1 = CC_Stat.CC_OK ∧
    cc_array_size (cc_array_add_at true sampleThree 99 1).2 =
      cc_array_size sampleThree + 1 :=
  ⟨by decide, by decide,
    ((claim_C4 sampleThree 99 true 1).2.2 (by decide) (by decide)).1⟩

/-- C10: every array returned by cc_array_subarray has growth factor 0
(the sub array struct is calloc'ed and exp_factor is never copied), so
its first add triggers an expansion whose new capacity
floor(capacity * 0) = 0 is not greater than the current capacity, and
the capacity is clamped directly to CC_MAX_ELEMENTS. -/
theorem claim_C10 {α : Type} (ar : CC_Array α) (b e : Nat) (x : α)
    (alloc_ok : Bool) (hbe : b ≤ e) (he : e < cc_array_size ar)
    (hsz : cc_array_size ar < CC_MAX_ELEMENTS) :
    ∃ sub : CC_Array α,
      cc_array_subarray true ar b e = (CC_Stat.CC_OK, some sub) ∧
      sub.exp_factor = 0 ∧
      cc_array_size sub = sub.capacity ∧
      (⌊(sub.capacity : ℚ) * sub.exp_factor⌋).toNat = 0 ∧
      (cc_array_add alloc_ok sub x).2.capacity = CC_MAX_ELEMENTS := by
  refine ⟨{ capacity := e - b + 1, exp_factor := 0,
            buffer := (ar.buffer.drop b).take (e - b + 1) }, ?_, rfl, ?_, ?_, ?_⟩
  · have hguard : ¬ (b > e ∨ e ≥ cc_array_size ar) := by omega
    simp [cc_array_subarray, hguard]
  · simp only [cc_array_size, List.length_take, List.length_drop]
    simp only [cc_array_size] at he
    omega
  · simp
  · set sub : CC_Array α :=
      { capacity := e - b + 1, exp_factor := 0,
        buffer := (ar.buffer.drop b).take (e - b + 1) } with hsub
    have hsize : cc_array_size sub = e - b + 1 := by
      simp only [hsub, cc_array_size, List.length_take, List.length_drop]
      simp only [cc_array_size] at he
      omega
    have hge : sub.capacity ≤ cc_array_size sub := by
      rw [hsize]
    have hne : sub.capacity ≠ CC_MAX_ELEMENTS := by
      simp only [hsub]
      simp only [cc_array_size] at he hsz
      omega
    have hnc : expand_new_capacity sub = 0 :=
      expand_new_capacity_zero sub rfl
    rw [cc_array_add_capacity_trig alloc_ok sub x hge,
      expand_capacity_capacity_of_ne alloc_ok sub hne, hnc]
    simp

def sampleFour : CC_Array Nat :=
  { capacity := 8, exp_factor := 2, buffer := [1, 2, 3, 4] }

theorem claim_C10_witness :
    1 ≤ 2 ∧ 2 < cc_array_size sampleFour ∧
    cc_array_size sampleFour < CC_MAX_ELEMENTS ∧
    ∃ sub : CC_Array Nat,
      cc_array_subarray true sampleFour 1 2 = (CC_Stat.CC_OK, some sub) ∧
      sub.exp_factor = 0 ∧
      cc_array_size sub = sub.capacity ∧
      (⌊(sub.capacity : ℚ) * sub.exp_factor⌋).toNat = 0 ∧
      (cc_array_add true sub 9).2.capacity = CC_MAX_ELEMENTS :=
  ⟨by decide, by decide, by decide,
    claim_C10 sampleFour 1 2 9 true (by decide) (by decide) (by decide)⟩

theorem swapIdx_insert {α : Type} (a mid b : List α) (x y : α) :
    swapIdx (a ++ (x :: (mid ++ [y])) ++ b) a.length (a.length + mid.length + 1) =
      a ++ (y :: (mid ++ [x])) ++ b := by
  have hassoc : a ++ (x :: (mid ++ [y])) ++ b = a ++ ((x :: (mid ++ [y])) ++ b) :=
    List.append_assoc a _ b
  have hi : (a ++ (x :: (mid ++ [y])) ++ b)[a.length]? = some x := by
    rw [hassoc, List.getElem?_append_right (le_refl a.length), Nat.sub_self]
    simp
  have hj : (a ++ (x :: (mid ++ [y])) ++ b)[a.length + mid.length + 1]? = some y := by
    rw [hassoc, List.getElem?_append_right (by omega : a.length ≤ a.length + mid.length + 1)]
    have h1 : a.length + mid.length + 1 - a.length = mid.length + 1 := by omega
    rw [h1]
    show (x :: ((mid ++ [y]) ++ b))[mid.length + 1]? = some y
    rw [List.getElem?_cons_succ, List.getElem?_append, if_pos (by simp),
      List.getElem?_concat_length]
  simp only [swapIdx, hi, hj]
  rw [hassoc, List.set_append_right a.length y (le_refl a.length), Nat.sub_self]
  show (a ++ ((x :: ((mid ++ [y]) ++ b)).set 0 y)).set (a.length + mid.length + 1) x = _
  rw [List.set_cons_zero]
  rw [List.set_append_right (a.length + mid.length + 1) x
    (by omega : a.length ≤ a.length + mid.length + 1)]
  have h1 : a.length + mid.length + 1 - a.length = mid.length + 1 := by omega
  rw [h1, List.set_cons_succ]
  rw [List.set_append_left mid.length x (by simp)]
  rw [List.set_append_right mid.length x (le_refl mid.length), Nat.sub_self]
  rw [List.set_cons_zero]
  simp [List.append_assoc]

theorem revLoop_seg {α : Type} :
    ∀ (k : Nat) (a m b : List α), (m.length = 2 * k ∨ m.length = 2 * k + 1) →
      revLoop (a ++ m ++ b) a.length (a.length + m.length - 1) k =
        a ++ m.reverse ++ b := by
  intro k
  induction k with
  | zero =>
    intro a m b hm
    rcases m with _ | ⟨x, m'⟩
    · simp [revLoop]
    · have hm' : m' = [] := by
        rcases hm with h | h <;>
          simp only [List.length_cons] at h <;>
          exact List.eq_nil_of_length_eq_zero (by omega)
      subst hm'
      simp [revLoop]
  | succ k ih =>
    intro a m b hm
    have hlen : 2 ≤ m.length := by omega
    rcases m with _ | ⟨x, m'⟩
    · simp at hlen
    · have hm' : m' ≠ [] := by
        intro h
        subst h
        simp at hlen
      rcases List.eq_nil_or_concat m' with h | ⟨mid, y, rfl⟩
      · exact absurd h hm'
      · simp only [List.concat_eq_append] at hm ⊢
        have hj : a.length + (x :: (mid ++ [y])).length - 1 =
            a.length + mid.length + 1 := by
          simp only [List.length_cons, List.length_append, List.length_nil]
          omega
        rw [hj]
        show revLoop (a ++ (x :: (mid ++ [y])) ++ b) a.length
            (a.length + mid.length + 1) (k + 1) = _
        rw [revLoop, swapIdx_insert]
        have harr : a ++ (y :: (mid ++ [x])) ++ b =
            (a ++ [y]) ++ mid ++ ([x] ++ b) := by
          simp [List.append_assoc]
        rw [harr]
        have hidx1 : a.length + 1 = (a ++ [y]).length := by simp
        have hidx2 : a.length + mid.length + 1 - 1 =
            (a ++ [y]).length + mid.length - 1 := by
          simp
        rw [hidx1, hidx2]
        rw [ih (a ++ [y]) mid ([x] ++ b)
          (by simp only [List.length_cons, List.length_append, List.length_nil] at hm
              omega)]
        simp [List.append_assoc]

theorem revLoop_reverse {α : Type} (l : List α) :
    revLoop l 0 (l.length - 1) (l.length / 2) = l.reverse := by
  have h := revLoop_seg (l.length / 2) [] l [] (by omega)
  simpa using h

theorem cc_array_reverse_buffer {α : Type} (ar : CC_Array α) :
    (cc_array_reverse ar).buffer = ar.buffer.reverse := by
  by_cases h : cc_array_size ar = 0
  · have hb : ar.buffer = [] := List.eq_nil_of_length_eq_zero h
    simp [cc_array_reverse, h, hb]
  · simp only [cc_array_reverse, h, if_false]
    exact revLoop_reverse ar.buffer

theorem cc_array_reverse_capacity {α : Type} (ar : CC_Array α) :
    (cc_array_reverse ar).capacity = ar.capacity := by
  by_cases h : cc_array_size ar = 0 <;> simp [cc_array_reverse, h]

theorem cc_array_reverse_exp {α : Type} (ar : CC_Array α) :
    (cc_array_reverse ar).exp_factor = ar.exp_factor := by
  by_cases h : cc_array_size ar = 0 <;> simp [cc_array_reverse, h]

theorem cc_array_reverse_reverse {α : Type} (ar : CC_Array α) :
    cc_array_reverse (cc_array_reverse ar) = ar := by
  rcases ar with ⟨c, q, l⟩
  have h1 := cc_array_reverse_buffer (cc_array_reverse ⟨c, q, l⟩)
  have h2 := cc_array_reverse_buffer (⟨c, q, l⟩ : CC_Array α)
  have h3 := cc_array_reverse_capacity (cc_array_reverse ⟨c, q, l⟩)
  have h4 := cc_array_reverse_capacity (⟨c, q, l⟩ : CC_Array α)
  have h5 := cc_array_reverse_exp (cc_array_reverse ⟨c, q, l⟩)
  have h6 := cc_array_reverse_exp (⟨c, q, l⟩ : CC_Array α)
  rcases hx : cc_array_reverse (cc_array_reverse ⟨c, q, l⟩) with ⟨c', q', l'⟩
  rw [hx] at h1 h3 h5
  simp only at h1 h3 h5
  rw [h2] at h1
  rw [h4] at h3
  rw [h6] at h5
  simp only [List.reverse_reverse] at h1
  subst h1 h3 h5
  rfl

/- Singly linked list (cc_slist.c).  Nodes live in an explicit heap: an
association list from addresses (Nat) to nodes plus a fresh-address
counter; a NULL pointer is the none value of Option Nat. -/

structure SNode (α : Type) where
  data : α
  next : Option Nat
deriving DecidableEq

structure Mem (α : Type) where
  heap : List (Nat × SNode α)
  fresh : Nat
deriving DecidableEq

def Mem.get {α : Type} (m : Mem α) (p : Nat) : Option (SNode α) :=
  m.heap.lookup p

/- Overwriting the node stored at an (existing) address: the in-place
field assignments node->next = ... / node->data = ... of the C code. -/
def setEntry {α : Type} (p : Nat) (n : SNode α) :
    List (Nat × SNode α) → List (Nat × SNode α)
  | [] => []
  | (k, v) :: t => if k = p then (p, n) :: setEntry p n t else (k, v) :: setEntry p n t

def Mem.set {α : Type} (m : Mem α) (p : Nat) (n : SNode α) : Mem α :=
  { m with heap := setEntry p n m.heap }

def Mem.alloc {α : Type} (m : Mem α) (n : SNode α) : Nat × Mem α :=
  (m.fresh, { heap := (m.fresh, n) :: m.heap, fresh := m.fresh + 1 })

def removeEntry {α : Type} (p : Nat) :
    List (Nat × SNode α) → List (Nat × SNode α)
  | [] => []
  | (k, v) :: t => if k = p then removeEntry p t else (k, v) :: removeEntry p t

def Mem.free {α : Type} (m : Mem α) (p : Nat) : Mem α :=
  { m with heap := removeEntry p m.heap }

/- struct cc_slist_s. -/
structure CC_SList (α : Type) where
  size : Nat
  head : Option Nat
  tail : Option Nat
deriving DecidableEq

/- cc_slist_new: the struct is calloc'ed, so size 0 and NULL head/tail. -/
def cc_slist_new_list {α : Type} : CC_SList α :=
  { size := 0, head := none, tail := none }

def cc_slist_size {α : Type} (l : CC_SList α) : Nat :=
  l.size

def cc_slist_add_first {α : Type} (alloc_ok : Bool) (m : Mem α)
    (l : CC_SList α) (element : α) : CC_Stat × Mem α × CC_SList α :=
  if !alloc_ok then (CC_Stat.CC_ERR_ALLOC, m, l)
  else
    let (p, m1) := m.alloc { data := element, next := none }
    if l.size = 0 then
      (CC_Stat.CC_OK, m1, { size := l.size + 1, head := some p, tail := some p })
    else
      (CC_Stat.CC_OK, m1.set p { data := element, next := l.head },
        { l with head := some p, size := l.size + 1 })

def cc_slist_add_last {α : Type} (alloc_ok : Bool) (m : Mem α)
    (l : CC_SList α) (element : α) : Option (CC_Stat × Mem α × CC_SList α) :=
  if !alloc_ok then some (CC_Stat.CC_ERR_ALLOC, m, l)
  else
    let (p, m1) := m.alloc { data := element, next := none }
    if l.size = 0 then
      some (CC_Stat.CC_OK, m1, { size := l.size + 1, head := some p, tail := some p })
    else
      match l.tail with
      | none => none
      | some t =>
        match m1.get t with
        | none => none
        | some tn =>
          some (CC_Stat.CC_OK, m1.set t { tn with next := some p },
            { l with tail := some p, size := l.size + 1 })

/- The walk of get_node_at: for (i = 0; i < index; i++) advances node and
prev; dereferencing a NULL or dangling node pointer crashes (none). -/
def walk {α : Type} (m : Mem α) : Nat → Option Nat → Option Nat →
    Option (Option Nat × Option Nat)
  | 0, node, prev => some (node, prev)
  | i + 1, node, _prev =>
    match node with
    | none => none
    | some p =>
      match m.get p with
      | none => none
      | some nd => walk m i nd.next (some p)

def get_node_at {α : Type} (m : Mem α) (l : CC_SList α) (index : Nat) :
    Option (CC_Stat × Option Nat × Option Nat) :=
  if index ≥ l.size then some (CC_Stat.CC_ERR_OUT_OF_RANGE, none, none)
  else
    match walk m index l.head none with
    | none => none
    | some (node, prev) => some (CC_Stat.CC_OK, node, prev)

def cc_slist_add_at {α : Type} (alloc_ok : Bool) (m : Mem α) (l : CC_SList α)
    (element : α) (index : Nat) : Option (CC_Stat × Mem α × CC_SList α) :=
  match get_node_at m l index with
  | none => none
  | some (CC_Stat.CC_OK, _node, prev) =>
    if !alloc_ok then some (CC_Stat.CC_ERR_ALLOC, m, l)
    else
      let (p, m1) := m.alloc { data := element, next := none }
      match prev with
      | none =>
        some (CC_Stat.CC_OK, m1.set p { data := element, next := l.head },
          { l with head := some p, size := l.size + 1 })
      | some pv =>
        match m1.get pv with
        | none => none
        | some pn =>
          some (CC_Stat.CC_OK,
            (m1.set pv { pn with next := some p }).set p
              { data := element, next := pn.next },
            { l with size := l.size + 1 })
  | some (st, _, _) => some (st, m, l)

def cc_slist_splice {α : Type} (m : Mem α) (l1 l2 : CC_SList α) :
    Option (CC_Stat × Mem α × CC_SList α × CC_SList α) :=
  if l2.size = 0 then some (CC_Stat.CC_OK, m, l1, l2)
  else if l1.size = 0 then
    some (CC_Stat.CC_OK, m,
      { head := l2.head, tail := l2.tail, size := l1.size + l2.size },
      { head := none, tail := none, size := 0 })
  else
    match l1.tail with
    | none => none
    | some t =>
      match m.get t with
      | none => none
      | some tn =>
        some (CC_Stat.CC_OK, m.set t { tn with next := l2.head },
          { head := l1.head, tail := l2.tail, size := l1.size + l2.size },
          { head := none, tail := none, size := 0 })

/- unlinkn.  The size_t decrement list->size-- is modelled as Nat
truncated subtraction; in every reachable call the list is non-empty so
the values coincide. -/
def unlinkn {α : Type} (m : Mem α) (l : CC_SList α) (node : Nat)
    (prev : Option Nat) : Option (α × Mem α × CC_SList α) :=
  match m.get node with
  | none => none
  | some nd =>
    let step :=
      match prev with
      | some p =>
        match m.get p with
        | none => none
        | some pn => some (m.set p { pn with next := nd.next }, l)
      | none => some (m, { l with head := nd.next })
    match step with
    | none => none
    | some (m1, l1) =>
      let l2 := if nd.next = none then { l1 with tail := prev } else l1
      some (nd.data, m1.free node, { l2 with size := l2.size - 1 })

/- The search loop of get_node, with an explicit fuel bound on the number
of dereferences (the C loop simply runs until the node pointer is NULL;
any fuel at least the chain length gives the same result). -/
def get_node_loop {α : Type} [DecidableEq α] (m : Mem α) (element : α) :
    Nat → Option Nat → Option Nat → Option (CC_Stat × Option Nat × Option Nat)
  | fuel, node, prev =>
    match node with
    | none => some (CC_Stat.CC_ERR_VALUE_NOT_FOUND, node, prev)
    | some p =>
      match fuel with
      | 0 => none
      | fuel + 1 =>
        match m.get p with
        | none => none
        | some nd =>
          if nd.data = element then some (CC_Stat.CC_OK, some p, prev)
          else get_node_loop m element fuel nd.next (some p)

def get_node {α : Type} [DecidableEq α] (fuel : Nat) (m : Mem α)
    (l : CC_SList α) (element : α) :
    Option (CC_Stat × Option Nat × Option Nat) :=
  get_node_loop m element fuel l.head none

def cc_slist_remove {α : Type} [DecidableEq α] (fuel : Nat) (m : Mem α)
    (l : CC_SList α) (element : α) (out_null : Bool) :
    Option (CC_Stat × Mem α × CC_SList α × Option α) :=
  match get_node fuel m l element with
  | none => none
  | some (CC_Stat.CC_OK, node, prev) =>
    match node with
    | none => none
    | some p =>
      match unlinkn m l p prev with
      | none => none
      | some (v, m1, l1) =>
        some (CC_Stat.CC_OK, m1, l1, if out_null then none else some v)
  | some (st, _, _) => some (st, m, l, none)

def cc_slist_remove_at {α : Type} (m : Mem α) (l : CC_SList α) (index : Nat)
    (out_null : Bool) : Option (CC_Stat × Mem α × CC_SList α × Option α) :=
  match get_node_at m l index with
  | none => none
  | some (CC_Stat.CC_OK, node, prev) =>
    match node with
    | none => none
    | some p =>
      match unlinkn m l p prev with
      | none => none
      | some (v, m1, l1) =>
        some (CC_Stat.CC_OK, m1, l1, if out_null then none else some v)
  | some (st, _, _) => some (st, m, l, none)

def cc_slist_remove_first {α : Type} (m : Mem α) (l : CC_SList α)
    (out_null : Bool) : Option (CC_Stat × Mem α × CC_SList α × Option α) :=
  if l.size = 0 then some (CC_Stat.CC_ERR_VALUE_NOT_FOUND, m, l, none)
  else
    match l.head with
    | none => none
    | some h =>
      match unlinkn m l h none with
      | none => none
      | some (v, m1, l1) =>
        some (CC_Stat.CC_OK, m1, l1, if out_null then none else some v)

/- The loop of unlinkn_all (with the remove_all callback cb = NULL);
fuel as in get_node_loop. -/
def unlinkn_all_loop {α : Type} (m : Mem α) :
    Nat → Option Nat → Nat → Option (Mem α × Nat)
  | _, none, size => some (m, size)
  | fuel, some p, size =>
    match fuel with
    | 0 => none
    | fuel + 1 =>
      match m.get p with
      | none => none
      | some nd => unlinkn_all_loop (m.free p) fuel nd.next (size - 1)

def cc_slist_remove_all {α : Type} (fuel : Nat) (m : Mem α) (l : CC_SList α) :
    Option (CC_Stat × Mem α × CC_SList α) :=
  if l.size = 0 then some (CC_Stat.CC_ERR_VALUE_NOT_FOUND, m, l)
  else
    match unlinkn_all_loop m fuel l.head l.size with
    | none => none
    | some (m1, sz) =>
      some (CC_Stat.CC_OK, m1, { size := sz, head := none, tail := none })

def cc_slist_replace_at {α : Type} (m : Mem α) (l : CC_SList α) (element : α)
    (index : Nat) (out_null : Bool) : Option (CC_Stat × Mem α × Option α) :=
  match get_node_at m l index with
  | none => none
  | some (CC_Stat.CC_OK, node, _) =>
    match node with
    | none => none
    | some p =>
      match m.get p with
      | none => none
      | some nd =>
        some (CC_Stat.CC_OK, m.set p { nd with data := element },
          if out_null then none else some nd.data)
  | some (st, _, _) => some (st, m, none)

/- cc_slist_get_at.  Like the array get_at, the store *out = node->data
is unconditional: the node is dereferenced first, then a NULL out slot
crashes. -/
def cc_slist_get_at {α : Type} (m : Mem α) (l : CC_SList α) (index : Nat)
    (out_null : Bool) : Option (CC_Stat × Option α) :=
  match get_node_at m l index with
  | none => none
  | some (CC_Stat.CC_OK, node, _) =>
    match node with
    | none => none
    | some p =>
      match m.get p with
      | none => none
      | some nd => if out_null then none else some (CC_Stat.CC_OK, some nd.data)
  | some (st, _, _) => some (st, none)

/- The three-pointer reversal loop of cc_slist_reverse, with fuel. -/
def reverse_loop {α : Type} (m : Mem α) :
    Nat → Option Nat → Option Nat → Option (Mem α × Option Nat)
  | _, none, prev => some (m, prev)
  | fuel, some p, prev =>
    match fuel with
    | 0 => none
    | fuel + 1 =>
      match m.get p with
      | none => none
      | some nd => reverse_loop (m.set p { nd with next := prev }) fuel nd.next (some p)

def cc_slist_reverse {α : Type} (fuel : Nat) (m : Mem α) (l : CC_SList α) :
    Option (Mem α × CC_SList α) :=
  if l.size = 0 ∨ l.size = 1 then some (m, l)
  else
    match reverse_loop m fuel l.head none with
    | none => none
    | some (m1, prev) => some (m1, { l with tail := l.head, head := prev })

/- The copy loop of cc_slist_copy_shallow: walks the source chain and
appends each data value to the fresh copy via cc_slist_add_last. -/
def copy_loop {α : Type} (alloc_ok : Bool) :
    Nat → Mem α → CC_SList α → Option Nat → Option (CC_Stat × Mem α × CC_SList α)
  | _, m, copy, none => some (CC_Stat.CC_OK, m, copy)
  | fuel, m, copy, some p =>
    match fuel with
    | 0 => none
    | fuel + 1 =>
      match m.get p with
      | none => none
      | some nd =>
        match cc_slist_add_last alloc_ok m copy nd.data with
        | none => none
        | some (CC_Stat.CC_OK, m1, copy1) => copy_loop alloc_ok fuel m1 copy1 nd.next
        | some (st, m1, _) => some (st, m1, cc_slist_new_list)

def cc_slist_copy_shallow {α : Type} (fuel : Nat) (alloc_ok : Bool)
    (m : Mem α) (l : CC_SList α) :
    Option (CC_Stat × Mem α × Option (CC_SList α)) :=
  if !alloc_ok then some (CC_Stat.CC_ERR_ALLOC, m, none)
  else
    match copy_loop alloc_ok fuel m cc_slist_new_list l.head with
    | none => none
    | some (CC_Stat.CC_OK, m1, copy) => some (CC_Stat.CC_OK, m1, some copy)
    | some (st, m1, _) => some (st, m1, none)

/- The chain predicate: chainSeg m p stop addrs holds when starting from
pointer p and following next fields visits exactly the addresses in
addrs and ends with the pointer stop. -/
def chainSeg {α : Type} (m : Mem α) : Option Nat → Option Nat → List Nat → Bool
  | p, stop, [] => p == stop
  | p, stop, a :: rest =>
    p == some a &&
      (match m.get a with
       | none => false
       | some nd => chainSeg m nd.next stop rest)

/- The representation invariant of a list value: some address sequence is
chained from head to NULL, the tail field is its last element, and size
is its length. -/
def SListRep {α : Type} (m : Mem α) (l : CC_SList α) (addrs : List Nat) : Prop :=
  chainSeg m l.head none addrs = true ∧ l.tail = addrs.getLast? ∧
    l.size = addrs.length

def SListWf {α : Type} (m : Mem α) (l : CC_SList α) : Prop :=
  ∃ addrs : List Nat, SListRep m l addrs ∧ addrs.Nodup

def MemWf {α : Type} (m : Mem α) : Prop :=
  ∀ e ∈ m.heap, e.1 < m.fresh

def WfState {α : Type} (m : Mem α) (l : CC_SList α) : Prop :=
  MemWf m ∧ SListWf m l

def slistVals {α : Type} (m : Mem α) (addrs : List Nat) : List (Option α) :=
  addrs.map (fun a => (m.get a).map (fun nd => nd.data))

def stepN {α : Type} (m : Mem α) : Nat → Option Nat → Option Nat
  | 0, p => p
  | k + 1, p =>
    match p with
    | none => none
    | some a =>
      match m.get a with
      | none => none
      | some nd => stepN m k nd.next

/- Heap lemmas. -/

theorem lookup_cons_eq {α : Type} (k : Nat) (v : SNode α)
    (t : List (Nat × SNode α)) (a : Nat) :
    ((k, v) :: t).lookup a = if a = k then some v else t.lookup a := by
  rw [List.lookup_cons]
  by_cases h : a = k
  · subst h
    simp
  · have hb : (a == k) = false := by simp [h]
    rw [hb, if_neg h]

theorem Mem.get_set {α : Type} (m : Mem α) (p : Nat) (n : SNode α) (a : Nat) :
    (m.set p n).get a = if a = p then (m.get p).map (fun _ => n) else m.get a := by
  rcases m with ⟨heap, fresh⟩
  simp only [Mem.set, Mem.get]
  induction heap with
  | nil => simp [setEntry]
  | cons e t iht =>
    rcases e with ⟨k, v⟩
    by_cases hkp : k = p
    · subst hkp
      simp only [setEntry, eq_self_iff_true, if_true]
      rw [lookup_cons_eq, lookup_cons_eq]
      by_cases hak : a = k
      · simp [hak]
      · simp only [if_neg hak, iht]
        rw [lookup_cons_eq, if_neg hak]
    · simp only [setEntry, if_neg hkp]
      rw [lookup_cons_eq, lookup_cons_eq, lookup_cons_eq]
      have hpk : ¬ p = k := fun hh => hkp hh.symm
      by_cases hak : a = k
      · have hap : ¬ a = p := by rw [hak]; exact hkp
        simp [hak, hap, hkp]
      · rw [if_neg hak, if_neg hak, iht, if_neg hpk]

theorem Mem.get_alloc {α : Type} (m : Mem α) (n : SNode α) (a : Nat) :
    ((m.alloc n).2).get a = if a = m.fresh then some n else m.get a :=
  lookup_cons_eq m.fresh n m.heap a

theorem Mem.get_free {α : Type} (m : Mem α) (p a : Nat) :
    (m.free p).get a = if a = p then none else m.get a := by
  rcases m with ⟨heap, fresh⟩
  simp only [Mem.free, Mem.get]
  induction heap with
  | nil => simp [removeEntry]
  | cons e t iht =>
    rcases e with ⟨k, v⟩
    by_cases hkp : k = p
    · subst hkp
      simp only [removeEntry, eq_self_iff_true, if_true]
      rw [iht, lookup_cons_eq]
      by_cases hak : a = k
      · simp [hak]
      · rw [if_neg hak, if_neg hak, if_neg hak]
    · simp only [removeEntry, if_neg hkp]
      rw [lookup_cons_eq, lookup_cons_eq, iht]
      by_cases hak : a = k
      · have hap : ¬ a = p := by rw [hak]; exact hkp
        simp [hak, hap, hkp]
      · rw [if_neg hak, if_neg hak]

theorem Mem.set_fresh {α : Type} (m : Mem α) (p : Nat) (n : SNode α) :
    (m.set p n).fresh = m.fresh := rfl

theorem Mem.free_fresh {α : Type} (m : Mem α) (p : Nat) :
    (m.free p).fresh = m.fresh := rfl

theorem Mem.alloc_fresh {α : Type} (m : Mem α) (n : SNode α) :
    ((m.alloc n).2).fresh = m.fresh + 1 := rfl

theorem lookup_mem_pair {α : Type} :
    ∀ (h : List (Nat × SNode α)) (k : Nat) (nd : SNode α),
      h.lookup k = some nd → (k, nd) ∈ h := by
  intro h
  induction h with
  | nil => intro k nd hk; simp at hk
  | cons e t iht =>
    intro k nd hk
    rcases e with ⟨k', v⟩
    rw [lookup_cons_eq] at hk
    by_cases hkk : k = k'
    · rw [if_pos hkk] at hk
      injection hk with hv
      subst hkk hv
      exact List.mem_cons_self _ _
    · rw [if_neg hkk] at hk
      exact List.mem_cons_of_mem _ (iht k nd hk)

theorem mem_setEntry {α : Type} (p : Nat) (n : SNode α) :
    ∀ (t : List (Nat × SNode α)) (e : Nat × SNode α),
      e ∈ setEntry p n t → ∃ q ∈ t, e.1 = q.1 := by
  intro t
  induction t with
  | nil => intro e he; simp [setEntry] at he
  | cons q t iht =>
    intro e he
    rcases q with ⟨k, v⟩
    by_cases hkp : k = p
    · subst hkp
      simp only [setEntry, eq_self_iff_true, if_true, List.mem_cons] at he
      rcases he with he | he
      · exact ⟨(k, v), List.mem_cons_self _ _, by rw [he]⟩
      · obtain ⟨q, hq, he1⟩ := iht e he
        exact ⟨q, List.mem_cons_of_mem _ hq, he1⟩
    · simp only [setEntry, if_neg hkp, List.mem_cons] at he
      rcases he with he | he
      · exact ⟨(k, v), List.mem_cons_self _ _, by rw [he]⟩
      · obtain ⟨q, hq, he1⟩ := iht e he
        exact ⟨q, List.mem_cons_of_mem _ hq, he1⟩

theorem mem_removeEntry {α : Type} (p : Nat) :
    ∀ (t : List (Nat × SNode α)) (e : Nat × SNode α),
      e ∈ removeEntry p t → e ∈ t := by
  intro t
  induction t with
  | nil => intro e he; simp [removeEntry] at he
  | cons q t iht =>
    intro e he
    rcases q with ⟨k, v⟩
    by_cases hkp : k = p
    · subst hkp
      simp only [removeEntry, eq_self_iff_true, if_true] at he
      exact List.mem_cons_of_mem _ (iht e he)
    · simp only [removeEntry, if_neg hkp, List.mem_cons] at he
      rcases he with he | he
      · rw [he]
        exact List.mem_cons_self _ _
      · exact List.mem_cons_of_mem _ (iht e he)

theorem MemWf.get_lt {α : Type} {m : Mem α} (h : MemWf m) {k : Nat}
    {nd : SNode α} (hg : m.get k = some nd) : k < m.fresh :=
  h (k, nd) (lookup_mem_pair m.heap k nd hg)

theorem MemWf.set {α : Type} {m : Mem α} (h : MemWf m) (p : Nat) (n : SNode α) :
    MemWf (m.set p n) := by
  intro e he
  have he' : e ∈ setEntry p n m.heap := he
  obtain ⟨q, hq, he1⟩ := mem_setEntry p n m.heap e he'
  show e.1 < m.fresh
  rw [he1]
  exact h q hq

theorem MemWf.alloc {α : Type} {m : Mem α} (h : MemWf m) (n : SNode α) :
    MemWf (m.alloc n).2 := by
  intro e he
  have he' : e = (m.fresh, n) ∨ e ∈ m.heap := List.mem_cons.mp he
  show e.1 < m.fresh + 1
  rcases he' with rfl | he'
  · simp
  · have := h e he'
    omega

theorem MemWf.free {α : Type} {m : Mem α} (h : MemWf m) (p : Nat) :
    MemWf (m.free p) := by
  intro e he
  have he' : e ∈ removeEntry p m.heap := he
  show e.1 < m.fresh
  exact h e (mem_removeEntry p m.heap e he')

/- Chain lemmas. -/

theorem chainSeg_nil_iff {α : Type} (m : Mem α) (p stop : Option Nat) :
    chainSeg m p stop [] = true ↔ p = stop := by
  simp [chainSeg]

theorem chainSeg_cons_iff {α : Type} (m : Mem α) (p stop : Option Nat)
    (a : Nat) (rest : List Nat) :
    chainSeg m p stop (a :: rest) = true ↔
      p = some a ∧ ∃ nd, m.get a = some nd ∧ chainSeg m nd.next stop rest = true := by
  simp only [chainSeg, Bool.and_eq_true, beq_iff_eq]
  constructor
  · rintro ⟨hp, hm⟩
    refine ⟨hp, ?_⟩
    rcases hx : m.get a with _ | nd
    · rw [hx] at hm
      simp at hm
    · rw [hx] at hm
      exact ⟨nd, rfl, hm⟩
  · rintro ⟨hp, nd, hnd, hc⟩
    refine ⟨hp, ?_⟩
    rw [hnd]
    exact hc

theorem chainSeg_append_iff {α : Type} (m : Mem α) (p r : Option Nat)
    (xs ys : List Nat) :
    chainSeg m p r (xs ++ ys) = true ↔
      ∃ q, chainSeg m p q xs = true ∧ chainSeg m q r ys = true := by
  induction xs generalizing p with
  | nil =>
    simp only [List.nil_append]
    constructor
    · intro h
      exact ⟨p, (chainSeg_nil_iff m p p).mpr rfl, h⟩
    · rintro ⟨q, h1, h2⟩
      have := (chainSeg_nil_iff m p q).mp h1
      rw [this]
      exact h2
  | cons a rest ih =>
    simp only [List.cons_append, chainSeg_cons_iff, ih]
    constructor
    · rintro ⟨hp, nd, hnd, q, h1, h2⟩
      exact ⟨q, ⟨hp, nd, hnd, h1⟩, h2⟩
    · rintro ⟨q, ⟨hp, nd, hnd, h1⟩, h2⟩
      exact ⟨hp, nd, hnd, q, h1, h2⟩

theorem chainSeg_eq_of_get_eq {α : Type} (m m' : Mem α) (stop : Option Nat) :
    ∀ (xs : List Nat) (p : Option Nat), (∀ a ∈ xs, m'.get a = m.get a) →
      chainSeg m' p stop xs = chainSeg m p stop xs := by
  intro xs
  induction xs with
  | nil => intro p _; rfl
  | cons a rest ih =>
    intro p h
    simp only [chainSeg]
    rw [h a (List.mem_cons_self _ _)]
    rcases hx : m.get a with _ | nd
    · rfl
    · show (p == some a && chainSeg m' nd.next stop rest) =
        (p == some a && chainSeg m nd.next stop rest)
      rw [ih nd.next (fun b hb => h b (List.mem_cons_of_mem _ hb))]

theorem chainSeg_eq_of_next_eq {α : Type} (m m' : Mem α) (stop : Option Nat) :
    ∀ (xs : List Nat) (p : Option Nat),
      (∀ a ∈ xs, ((m'.get a).map SNode.next) = ((m.get a).map SNode.next)) →
      chainSeg m' p stop xs = chainSeg m p stop xs := by
  intro xs
  induction xs with
  | nil => intro p _; rfl
  | cons a rest ih =>
    intro p h
    simp only [chainSeg]
    have ha := h a (List.mem_cons_self _ _)
    rcases hx : m.get a with _ | nd
    · rw [hx] at ha
      simp only [Option.map_none'] at ha
      rcases hx' : m'.get a with _ | nd'
      · rfl
      · rw [hx'] at ha
        simp at ha
    · rw [hx] at ha
      rcases hx' : m'.get a with _ | nd'
      · rw [hx'] at ha
        simp at ha
      · rw [hx'] at ha
        simp only [Option.map_some'] at ha
        injection ha with ha'
        show (p == some a && chainSeg m' nd'.next stop rest) =
          (p == some a && chainSeg m nd.next stop rest)
        rw [ha']
        rw [ih nd.next (fun b hb => h b (List.mem_cons_of_mem _ hb))]

theorem chainSeg_set_not_mem {α : Type} (m : Mem α) (stop : Option Nat)
    (xs : List Nat) (p : Option Nat) (a : Nat) (n : SNode α) (ha : a ∉ xs) :
    chainSeg (m.set a n) p stop xs = chainSeg m p stop xs := by
  refine chainSeg_eq_of_get_eq m (m.set a n) stop xs p (fun b hb => ?_)
  rw [Mem.get_set]
  rw [if_neg (fun hh => ha (by rw [← hh]; exact hb))]

theorem chainSeg_alloc_not_mem {α : Type} (m : Mem α) (stop : Option Nat)
    (xs : List Nat) (p : Option Nat) (n : SNode α)
    (ha : ∀ x ∈ xs, x ≠ m.fresh) :
    chainSeg (m.alloc n).2 p stop xs = chainSeg m p stop xs := by
  refine chainSeg_eq_of_get_eq m (m.alloc n).2 stop xs p (fun b hb => ?_)
  rw [Mem.get_alloc]
  rw [if_neg (ha b hb)]

theorem chainSeg_free_not_mem {α : Type} (m : Mem α) (stop : Option Nat)
    (xs : List Nat) (p : Option Nat) (a : Nat) (ha : a ∉ xs) :
    chainSeg (m.free a) p stop xs = chainSeg m p stop xs := by
  refine chainSeg_eq_of_get_eq m (m.free a) stop xs p (fun b hb => ?_)
  rw [Mem.get_free]
  rw [if_neg (fun hh => ha (by rw [← hh]; exact hb))]

theorem chainSeg_get_some {α : Type} {m : Mem α} {stop : Option Nat} :
    ∀ {xs : List Nat} {p : Option Nat}, chainSeg m p stop xs = true →
      ∀ a ∈ xs, ∃ nd, m.get a = some nd := by
  intro xs
  induction xs with
  | nil => intro p _ a ha; simp at ha
  | cons x rest ih =>
    intro p h a ha
    obtain ⟨hp, nd, hnd, hc⟩ := (chainSeg_cons_iff m p stop x rest).mp h
    rcases List.mem_cons.mp ha with rfl | ha
    · exact ⟨nd, hnd⟩
    · exact ih hc a ha

theorem chainSeg_lt_fresh {α : Type} {m : Mem α} {stop : Option Nat}
    {xs : List Nat} {p : Option Nat} (hwf : MemWf m)
    (h : chainSeg m p stop xs = true) : ∀ a ∈ xs, a < m.fresh := by
  intro a ha
  obtain ⟨nd, hnd⟩ := chainSeg_get_some h a ha
  exact hwf.get_lt hnd

theorem chainSeg_head {α : Type} {m : Mem α} {p stop : Option Nat} {a : Nat}
    {rest : List Nat} (h : chainSeg m p stop (a :: rest) = true) : p = some a :=
  ((chainSeg_cons_iff m p stop a rest).mp h).1

theorem chainSeg_last_next_none {α : Type} {m : Mem α} {p : Option Nat}
    {xs : List Nat} {t : Nat} (h : chainSeg m p none (xs ++ [t]) = true) :
    ∃ nd, m.get t = some nd ∧ nd.next = none := by
  obtain ⟨q, _, h2⟩ := (chainSeg_append_iff m p none xs [t]).mp h
  obtain ⟨hq, nd, hnd, hc⟩ := (chainSeg_cons_iff m q none t []).mp h2
  exact ⟨nd, hnd, (chainSeg_nil_iff m nd.next none).mp hc⟩

theorem walk_chain {α : Type} (m : Mem α) :
    ∀ (i : Nat) (xs : List Nat) (p pr : Option Nat),
      chainSeg m p none xs = true → i < xs.length →
      walk m i p pr = some (xs[i]?, if i = 0 then pr else xs[i - 1]?) := by
  intro i
  induction i with
  | zero =>
    intro xs p pr h hlen
    rcases xs with _ | ⟨a, rest⟩
    · simp at hlen
    · have hp := chainSeg_head h
      simp [walk, hp]
  | succ i ih =>
    intro xs p pr h hlen
    rcases xs with _ | ⟨a, rest⟩
    · simp at hlen
    · obtain ⟨hp, nd, hnd, hc⟩ := (chainSeg_cons_iff m p none a rest).mp h
      rw [hp]
      show walk m (i + 1) (some a) pr = _
      simp only [walk, hnd]
      have hlen' : i < rest.length := by
        simp only [List.length_cons] at hlen
        omega
      rw [ih rest nd.next (some a) hc hlen']
      cases i with
      | zero => simp
      | succ j => simp

theorem chain_stepN {α : Type} (m : Mem α) :
    ∀ (xs : List Nat) (p stop : Option Nat), chainSeg m p stop xs = true →
      ∀ i, i < xs.length → stepN m i p = xs[i]? := by
  intro xs
  induction xs with
  | nil => intro p stop h i hi; simp at hi
  | cons a rest ih =>
    intro p stop h i hi
    obtain ⟨hp, nd, hnd, hc⟩ := (chainSeg_cons_iff m p stop a rest).mp h
    rw [hp]
    cases i with
    | zero => simp [stepN]
    | succ i =>
      show stepN m (i + 1) (some a) = _
      simp only [stepN, hnd]
      have hi' : i < rest.length := by
        simp only [List.length_cons] at hi
        omega
      rw [ih nd.next stop hc i hi', List.getElem?_cons_succ]

/- Operation specifications under the representation invariant. -/

theorem cc_slist_add_first_spec {α : Type} (m : Mem α) (l : CC_SList α)
    (as : List Nat) (e : α) (hwf : MemWf m) (hrep : SListRep m l as)
    (hnd : as.Nodup) :
    ∃ m' l', cc_slist_add_first true m l e = (CC_Stat.CC_OK, m', l') ∧
      SListRep m' l' (m.fresh :: as) ∧ (m.fresh :: as).Nodup ∧ MemWf m' ∧
      m'.fresh = m.fresh + 1 ∧
      (∀ x, x ≠ m.fresh → m'.get x = m.get x) := by
  obtain ⟨hchain, htail, hsize⟩ := hrep
  have hlt := chainSeg_lt_fresh hwf hchain
  have hfresh_nin : m.fresh ∉ as := fun hx => absurd (hlt m.fresh hx) (by omega)
  have hnd' : (m.fresh :: as).Nodup := List.nodup_cons.mpr ⟨hfresh_nin, hnd⟩
  by_cases hsz : l.size = 0
  · have hasnil : as = [] := by
      apply List.eq_nil_of_length_eq_zero
      omega
    subst hasnil
    have hhead : l.head = none := (chainSeg_nil_iff m l.head none).mp hchain
    refine ⟨(m.alloc { data := e, next := none }).2,
      { size := l.size + 1, head := some m.fresh, tail := some m.fresh },
      ?_, ?_, hnd', hwf.alloc _, rfl, ?_⟩
    · simp [cc_slist_add_first, hsz, Mem.alloc]
    · refine ⟨?_, ?_, ?_⟩
      · rw [(chainSeg_cons_iff _ _ _ _ _)]
        refine ⟨rfl, { data := e, next := none }, ?_, ?_⟩
        · rw [Mem.get_alloc, if_pos rfl]
        · simp [chainSeg]
      · simp
      · simp
        omega
    · intro x hx
      rw [Mem.get_alloc, if_neg hx]
  · have hasne : as ≠ [] := by
      intro hx
      rw [hx] at hsize
      simp at hsize
      exact hsz hsize
    set m1 := (m.alloc { data := e, next := none }).2 with hm1
    set m2 := m1.set m.fresh { data := e, next := l.head } with hm2
    refine ⟨m2, { l with head := some m.fresh, size := l.size + 1 },
      ?_, ?_, hnd', (hwf.alloc _).set _ _, rfl, ?_⟩
    · simp only [cc_slist_add_first, Bool.not_true, Bool.false_eq_true,
        if_false, hsz, Mem.alloc]
      rfl
    · refine ⟨?_, ?_, ?_⟩
      · rw [(chainSeg_cons_iff _ _ _ _ _)]
        refine ⟨rfl, { data := e, next := l.head }, ?_, ?_⟩
        · rw [hm2, Mem.get_set, if_pos rfl, hm1, Mem.get_alloc, if_pos rfl]
          rfl
        · show chainSeg m2 l.head none as = true
          rw [hm2, chainSeg_set_not_mem _ _ _ _ _ _ hfresh_nin]
          rw [hm1, chainSeg_alloc_not_mem _ _ _ _ _
            (fun x hx => fun hh => hfresh_nin (hh ▸ hx))]
          exact hchain
      · rcases as with _ | ⟨a, rest⟩
        · exact absurd rfl hasne
        · rw [htail, List.getLast?_cons_cons]
      · simp
        omega
    · intro x hx
      rw [hm2, Mem.get_set, if_neg hx, hm1, Mem.get_alloc, if_neg hx]

theorem cc_slist_add_last_spec {α : Type} (m : Mem α) (l : CC_SList α)
    (as : List Nat) (e : α) (hwf : MemWf m) (hrep : SListRep m l as)
    (hnd : as.Nodup) :
    ∃ m' l', cc_slist_add_last true m l e = some (CC_Stat.CC_OK, m', l') ∧
      SListRep m' l' (as ++ [m.fresh]) ∧ (as ++ [m.fresh]).Nodup ∧ MemWf m' ∧
      m'.fresh = m.fresh + 1 ∧
      (∀ x, x ∉ as → x ≠ m.fresh → m'.get x = m.get x) ∧
      (∀ x, x ≠ m.fresh →
        ((m'.get x).map SNode.data) = ((m.get x).map SNode.data)) := by
  obtain ⟨hchain, htail, hsize⟩ := hrep
  have hlt := chainSeg_lt_fresh hwf hchain
  have hfresh_nin : m.fresh ∉ as := fun hx => absurd (hlt m.fresh hx) (by omega)
  have hnd' : (as ++ [m.fresh]).Nodup := by
    rw [List.nodup_append]
    exact ⟨hnd, List.nodup_singleton _,
      fun x hx => by simp only [List.mem_singleton]; exact fun hh => hfresh_nin (hh ▸ hx)⟩
  by_cases hsz : l.size = 0
  · have hasnil : as = [] := by
      apply List.eq_nil_of_length_eq_zero
      omega
    subst hasnil
    refine ⟨(m.alloc { data := e, next := none }).2,
      { size := l.size + 1, head := some m.fresh, tail := some m.fresh },
      ?_, ?_, hnd', hwf.alloc _, rfl, ?_, ?_⟩
    · simp [cc_slist_add_last, hsz, Mem.alloc]
    · refine ⟨?_, by simp, by simp; omega⟩
      rw [List.nil_append, (chainSeg_cons_iff _ _ _ _ _)]
      refine ⟨rfl, { data := e, next := none }, ?_, by simp [chainSeg]⟩
      rw [Mem.get_alloc, if_pos rfl]
    · intro x _ hx
      rw [Mem.get_alloc, if_neg hx]
    · intro x hx
      rw [Mem.get_alloc, if_neg hx]
  · have hasne : as ≠ [] := by
      intro hx
      rw [hx] at hsize
      simp at hsize
      exact hsz hsize
    rcases List.eq_nil_or_concat as with h | ⟨init, t, rfl⟩
    · exact absurd h hasne
    rw [List.concat_eq_append] at hchain htail hsize hnd hnd' hfresh_nin hlt ⊢
    have htail' : l.tail = some t := by
      rw [htail, List.getLast?_concat]
    have ht_in : t ∈ init ++ [t] := by simp
    have ht_ne_fresh : t ≠ m.fresh := fun hh => hfresh_nin (hh ▸ ht_in)
    obtain ⟨q1, hinit, hlast⟩ :=
      (chainSeg_append_iff m l.head none init [t]).mp hchain
    obtain ⟨hq1, tn, htn, hnil⟩ := (chainSeg_cons_iff m q1 none t []).mp hlast
    have htn_next : tn.next = none := (chainSeg_nil_iff m tn.next none).mp hnil
    set m1 := (m.alloc { data := e, next := none }).2 with hm1
    have hm1get_t : m1.get t = some tn := by
      rw [hm1, Mem.get_alloc, if_neg ht_ne_fresh, htn]
    set m2 := m1.set t { tn with next := some m.fresh } with hm2
    have ht_nin_init : t ∉ init := by
      intro hx
      exact (List.nodup_append.mp hnd).2.2 hx (List.mem_singleton_self t)
    have hrun : cc_slist_add_last true m l e = some (CC_Stat.CC_OK, m2,
        { l with tail := some m.fresh, size := l.size + 1 }) := by
      simp only [cc_slist_add_last, Bool.not_true, Bool.false_eq_true, if_false,
        hsz, if_neg hsz, htail', hm1get_t]
      rfl
    refine ⟨m2, { l with tail := some m.fresh, size := l.size + 1 },
      hrun, ?_, hnd', (hwf.alloc _).set _ _, rfl, ?_, ?_⟩
    · refine ⟨?_, by rw [List.append_assoc, List.getLast?_append]; rfl, ?_⟩
      · rw [List.append_assoc]
        rw [(chainSeg_append_iff m2 l.head none init ([t] ++ [m.fresh]))]
        refine ⟨some t, ?_, ?_⟩
        · show chainSeg m2 l.head (some t) init = true
          rw [hm2, chainSeg_set_not_mem _ _ _ _ _ _ ht_nin_init]
          rw [hm1, chainSeg_alloc_not_mem _ _ _ _ _
            (fun x hx => fun hh => hfresh_nin (by rw [← hh]; exact List.mem_append_left _ hx))]
          rw [← hq1]
          exact hinit
        · show chainSeg m2 (some t) none (t :: [m.fresh]) = true
          rw [(chainSeg_cons_iff m2 (some t) none t [m.fresh])]
          refine ⟨rfl, { tn with next := some m.fresh }, ?_, ?_⟩
          · rw [hm2, Mem.get_set, if_pos rfl, hm1get_t]
            rfl
          · rw [(chainSeg_cons_iff m2 (some m.fresh) none m.fresh [])]
            refine ⟨rfl, { data := e, next := none }, ?_, by simp [chainSeg]⟩
            rw [hm2, Mem.get_set, if_neg (fun hh => ht_ne_fresh hh.symm),
              hm1, Mem.get_alloc, if_pos rfl]
      · simp only [List.length_append, List.length_cons, List.length_nil] at hsize ⊢
        omega
    · intro x hxin hxfresh
      rw [hm2, Mem.get_set, if_neg (fun hh => hxin (by rw [hh]; exact ht_in)),
        hm1, Mem.get_alloc, if_neg hxfresh]
    · intro x hxfresh
      rw [hm2, Mem.get_set]
      by_cases hxt : x = t
      · subst hxt
        rw [if_pos rfl, hm1get_t, htn]
        rfl
      · rw [if_neg hxt, hm1, Mem.get_alloc, if_neg hxfresh]

theorem take_getLast_eq {β : Type} (l : List β) (i : Nat) (h1 : 1 ≤ i)
    (h2 : i ≤ l.length) : (l.take i).getLast? = l[i - 1]? := by
  rw [List.getLast?_eq_getElem?, List.length_take]
  have hm : min i l.length = i := by omega
  rw [hm]
  exact List.getElem?_take_of_lt (by omega)

theorem chainSeg_none_start {α : Type} {m : Mem α} {xs : List Nat}
    (h : chainSeg m none none xs = true) : xs = [] := by
  cases xs with
  | nil => rfl
  | cons a rest =>
    obtain ⟨hp, _⟩ := (chainSeg_cons_iff m none none a rest).mp h
    exact absurd hp (by simp)

theorem get_node_at_decomp {α : Type} (m : Mem α) (l : CC_SList α)
    (as : List Nat) (index : Nat) (hrep : SListRep m l as)
    (hidx : index < l.size) :
    ∃ n, as[index]? = some n ∧
      get_node_at m l index =
        some (CC_Stat.CC_OK, some n, (as.take index).getLast?) ∧
      as = as.take index ++ n :: as.drop (index + 1) := by
  obtain ⟨hchain, htail, hsize⟩ := hrep
  have hlen : index < as.length := by omega
  refine ⟨as[index], List.getElem?_eq_getElem hlen, ?_, ?_⟩
  · have hguard : ¬ index ≥ l.size := by omega
    simp only [get_node_at, hguard, if_false]
    rw [walk_chain m index as l.head none hchain hlen]
    show some (CC_Stat.CC_OK, as[index]?,
        (if index = 0 then none else as[index - 1]?)) =
      some (CC_Stat.CC_OK, some as[index], (as.take index).getLast?)
    rw [List.getElem?_eq_getElem hlen]
    by_cases h0 : index = 0
    · subst h0
      simp
    · rw [if_neg h0, take_getLast_eq as index (by omega) (by omega)]
  · conv_lhs => rw [← List.take_append_drop index as]
    rw [List.drop_eq_getElem_cons hlen]

theorem getLast_append_ne_nil {β : Type} (A B : List β) (hB : B ≠ []) :
    (A ++ B).getLast? = B.getLast? := by
  rw [List.getLast?_append]
  rcases List.eq_nil_or_concat B with rfl | ⟨B0, b, rfl⟩
  · exact absurd rfl hB
  · rw [List.concat_eq_append, List.getLast?_concat]
    rfl

theorem unlinkn_spec {α : Type} (m : Mem α) (l : CC_SList α) (A B : List Nat)
    (n : Nat) (hwf : MemWf m)
    (hchain : chainSeg m l.head none (A ++ n :: B) = true)
    (htail : l.tail = (A ++ n :: B).getLast?)
    (hsize : l.size = (A ++ n :: B).length) (hnd : (A ++ n :: B).Nodup) :
    ∃ nd m' l', m.get n = some nd ∧
      unlinkn m l n A.getLast? = some (nd.data, m', l') ∧
      SListRep m' l' (A ++ B) ∧ (A ++ B).Nodup ∧ MemWf m' ∧
      m'.fresh = m.fresh ∧
      (∀ x, x ≠ n →
        ((m'.get x).map SNode.data) = ((m.get x).map SNode.data)) := by
  obtain ⟨q, hA, hnB⟩ := (chainSeg_append_iff m l.head none A (n :: B)).mp hchain
  obtain ⟨hq, nd, hnd_get, hBchain⟩ := (chainSeg_cons_iff m q none n B).mp hnB
  have hnodup' : (A ++ B).Nodup := by
    have h1 := List.nodup_append.mp hnd
    rw [List.nodup_cons] at h1
    exact List.nodup_append.mpr ⟨h1.1, h1.2.1.2,
      fun x hx hxB => h1.2.2 hx (List.mem_cons_of_mem _ hxB)⟩
  have hn_nin_A : n ∉ A := by
    intro hx
    exact (List.nodup_append.mp hnd).2.2 hx (List.mem_cons_self _ _)
  have hn_nin_B : n ∉ B := by
    have h1 := (List.nodup_append.mp hnd).2.1
    rw [List.nodup_cons] at h1
    exact h1.1
  rcases List.eq_nil_or_concat A with rfl | ⟨A0, pv, rfl⟩
  · -- removing the head node: prev = none
    have hq' : l.head = some n := by
      rw [(chainSeg_nil_iff m l.head q).mp hA, hq]
    rcases B with _ | ⟨b, B'⟩
    · -- the list had exactly one node
      have hnext : nd.next = none := by
        have := (chainSeg_nil_iff m nd.next none).mp hBchain
        exact this
      refine ⟨nd, (m.free n), { size := 0, head := none, tail := none },
        hnd_get, ?_, ?_, by simp, hwf.free n, rfl, ?_⟩
      · simp only [unlinkn, hnd_get, hnext, if_pos rfl]
        have hs1 : l.size = 1 := by simpa using hsize
        simp [hs1, hnext]
      · refine ⟨by simp [chainSeg], by simp, by simp⟩
      · intro x hx
        rw [Mem.get_free, if_neg hx]
    · -- the head has a successor
      have hnext : nd.next = some b := chainSeg_head hBchain
      have hnextne : ¬ nd.next = none := by rw [hnext]; simp
      refine ⟨nd, (m.free n),
        { size := l.size - 1, head := nd.next, tail := l.tail },
        hnd_get, ?_, ?_, hnodup', hwf.free n, rfl, ?_⟩
      · simp only [unlinkn, hnd_get, hnextne, if_neg hnextne]
        rfl
      · refine ⟨?_, ?_, ?_⟩
        · show chainSeg (m.free n) nd.next none ([] ++ b :: B') = true
          rw [List.nil_append,
            chainSeg_free_not_mem _ _ _ _ _ hn_nin_B]
          exact hBchain
        · rw [htail]
          simp
        · simp only [List.nil_append, List.length_cons] at hsize ⊢
          omega
      · intro x hx
        rw [Mem.get_free, if_neg hx]
  · -- removing an interior or last node: prev = some pv
    rw [List.concat_eq_append] at hchain htail hsize hnd hnodup' hn_nin_A hA ⊢
    have hprev : (A0 ++ [pv]).getLast? = some pv := List.getLast?_concat _
    obtain ⟨q2, hA0, hpv⟩ := (chainSeg_append_iff m l.head q A0 [pv]).mp hA
    obtain ⟨hq2, pn, hpn_get, hpv_nil⟩ := (chainSeg_cons_iff m q2 q pv []).mp hpv
    have hpn_next : pn.next = some n := by
      rw [(chainSeg_nil_iff m pn.next q).mp hpv_nil, hq]
    have hpv_ne_n : pv ≠ n := by
      intro hx
      exact hn_nin_A (by rw [← hx]; simp)
    have hpv_nin_B : pv ∉ B := by
      intro hx
      have h1 := (List.nodup_append.mp hnd).2.2
        (show pv ∈ A0 ++ [pv] by simp)
      exact h1 (List.mem_cons_of_mem _ hx)
    have hpv_nin_A0 : pv ∉ A0 := by
      intro hx
      have h1 := List.nodup_append.mp ((List.nodup_append.mp hnd).1)
      exact h1.2.2 hx (List.mem_singleton_self pv)
    have hn_nin_A0 : n ∉ A0 := fun hx => hn_nin_A (List.mem_append_left _ hx)
    set m1 := m.set pv { pn with next := nd.next } with hm1
    set mF := m1.free n with hmF
    have hget_pv : mF.get pv = some { pn with next := nd.next } := by
      rw [hmF, Mem.get_free, if_neg hpv_ne_n, hm1, Mem.get_set, if_pos rfl,
        hpn_get]
      rfl
    have hframe : ∀ x, x ≠ pv → x ≠ n → mF.get x = m.get x := by
      intro x hxpv hxn
      rw [hmF, Mem.get_free, if_neg hxn, hm1, Mem.get_set, if_neg hxpv]
    have hchainA0 : chainSeg mF l.head q2 A0 = true := by
      rw [hmF, chainSeg_free_not_mem _ _ _ _ _ hn_nin_A0, hm1,
        chainSeg_set_not_mem _ _ _ _ _ _ hpv_nin_A0]
      exact hA0
    have hchainB : chainSeg mF nd.next none B = true := by
      rw [hmF, chainSeg_free_not_mem _ _ _ _ _ hn_nin_B, hm1,
        chainSeg_set_not_mem _ _ _ _ _ _ hpv_nin_B]
      exact hBchain
    have hchain' : chainSeg mF l.head none (A0 ++ [pv] ++ B) = true := by
      rw [(chainSeg_append_iff mF l.head none (A0 ++ [pv]) B)]
      refine ⟨nd.next, ?_, hchainB⟩
      rw [(chainSeg_append_iff mF l.head nd.next A0 [pv])]
      refine ⟨q2, hchainA0, ?_⟩
      rw [(chainSeg_cons_iff mF q2 nd.next pv [])]
      exact ⟨hq2, { pn with next := nd.next }, hget_pv, by simp [chainSeg]⟩
    rcases B with _ | ⟨b, B'⟩
    · -- removing the last node
      have hnext : nd.next = none := by
        have := (chainSeg_nil_iff m nd.next none).mp hBchain
        exact this
      refine ⟨nd, mF,
        { size := l.size - 1, head := l.head, tail := some pv },
        hnd_get, ?_, ?_, by simpa using hnodup', (hwf.set _ _).free _, rfl, ?_⟩
      · simp only [unlinkn, hnd_get, hprev, hpn_get, hnext, eq_self_iff_true,
          if_true]
        rw [hmF, hm1, hnext]
      · refine ⟨by simpa using hchain', by simp, ?_⟩
        simp only [List.length_append, List.length_cons, List.length_nil] at hsize ⊢
        omega
      · intro x hxn
        by_cases hxpv : x = pv
        · subst hxpv
          rw [hget_pv, hpn_get]
          rfl
        · rw [hframe x hxpv hxn]
    · -- removing an interior node
      have hnext : nd.next = some b := chainSeg_head hBchain
      have hnextne : ¬ nd.next = none := by rw [hnext]; simp
      refine ⟨nd, mF,
        { size := l.size - 1, head := l.head, tail := l.tail },
        hnd_get, ?_, ?_, hnodup', (hwf.set _ _).free _, rfl, ?_⟩
      · simp only [unlinkn, hnd_get, hprev, hpn_get, if_neg hnextne]
      · refine ⟨hchain', ?_, ?_⟩
        · rw [htail, List.append_assoc, List.append_assoc,
            getLast_append_ne_nil A0 ([pv] ++ b :: B') (by simp),
            getLast_append_ne_nil A0 ([pv] ++ (n :: b :: B')) (by simp),
            getLast_append_ne_nil [pv] (b :: B') (by simp),
            getLast_append_ne_nil [pv] (n :: b :: B') (by simp),
            List.getLast?_cons_cons]
        · simp only [List.length_append, List.length_cons] at hsize ⊢
          omega
      · intro x hxn
        by_cases hxpv : x = pv
        · subst hxpv
          rw [hget_pv, hpn_get]
          rfl
        · rw [hframe x hxpv hxn]

theorem cc_slist_remove_at_spec {α : Type} (m : Mem α) (l : CC_SList α)
    (as : List Nat) (index : Nat) (out_null : Bool) (hwf : MemWf m)
    (hrep : SListRep m l as) (hnd : as.Nodup) (hidx : index < l.size) :
    ∃ (nd : SNode α) (m' : Mem α) (l' : CC_SList α),
      cc_slist_remove_at m l index out_null =
        some (CC_Stat.CC_OK, m', l', if out_null then none else some nd.data) ∧
      SListRep m' l' (as.take index ++ as.drop (index + 1)) ∧
      (as.take index ++ as.drop (index + 1)).Nodup ∧ MemWf m' ∧
      m'.fresh = m.fresh := by
  obtain ⟨n, hgetn, hnode, hdecomp⟩ := get_node_at_decomp m l as index hrep hidx
  obtain ⟨hchain, htail, hsize⟩ := hrep
  rw [hdecomp] at hchain htail hsize hnd
  obtain ⟨nd, m', l', hnd_get, hrun, hrep', hnd', hwf', hfresh, _⟩ :=
    unlinkn_spec m l (as.take index) (as.drop (index + 1)) n hwf hchain htail
      hsize hnd
  refine ⟨nd, m', l', ?_, hrep', hnd', hwf', hfresh⟩
  simp only [cc_slist_remove_at, hnode, hrun]

theorem cc_slist_remove_first_spec {α : Type} (m : Mem α) (l : CC_SList α)
    (as : List Nat) (out_null : Bool) (hwf : MemWf m)
    (hrep : SListRep m l as) (hnd : as.Nodup) (hsz : l.size ≠ 0) :
    ∃ (nd : SNode α) (m' : Mem α) (l' : CC_SList α) (n : Nat) (rest : List Nat),
      as = n :: rest ∧
      cc_slist_remove_first m l out_null =
        some (CC_Stat.CC_OK, m', l', if out_null then none else some nd.data) ∧
      SListRep m' l' rest ∧ rest.Nodup ∧ MemWf m' ∧ m'.fresh = m.fresh := by
  obtain ⟨hchain, htail, hsize⟩ := hrep
  rcases as with _ | ⟨n, rest⟩
  · rw [hsize] at hsz
    simp at hsz
  · have hhead : l.head = some n := chainSeg_head hchain
    obtain ⟨nd, m', l', hnd_get, hrun, hrep', hnd', hwf', hfresh, _⟩ :=
      unlinkn_spec m l [] rest n hwf (by rw [List.nil_append]; exact hchain)
        (by rw [List.nil_append]; exact htail)
        (by rw [List.nil_append]; exact hsize)
        (by rw [List.nil_append]; exact hnd)
    refine ⟨nd, m', l', n, rest, rfl, ?_, by simpa using hrep',
      by simpa using hnd', hwf', hfresh⟩
    simp only [cc_slist_remove_first, hsz, if_neg hsz, hhead]
    rw [show ([] : List Nat).getLast? = none from rfl] at hrun
    rw [hrun]
    simp

def lastOr (A : List Nat) (pr : Option Nat) : Option Nat :=
  match A.getLast? with
  | some x => some x
  | none => pr

theorem lastOr_cons (A : List Nat) (a : Nat) (pr : Option Nat) :
    lastOr (a :: A) pr = lastOr A (some a) := by
  rcases List.eq_nil_or_concat A with rfl | ⟨A0, x, rfl⟩
  · simp [lastOr]
  · simp only [lastOr, List.concat_eq_append]
    rw [List.getLast?_concat]
    rw [show (a :: (A0 ++ [x])).getLast? = some x from by
      rw [show a :: (A0 ++ [x]) = (a :: A0) ++ [x] from rfl, List.getLast?_concat]]

theorem get_node_loop_spec {α : Type} [DecidableEq α] (m : Mem α) (element : α) :
    ∀ (xs : List Nat) (fuel : Nat) (p pr : Option Nat),
      chainSeg m p none xs = true → xs.length ≤ fuel →
      (∃ A n B nd, xs = A ++ n :: B ∧ m.get n = some nd ∧ nd.data = element ∧
        get_node_loop m element fuel p pr =
          some (CC_Stat.CC_OK, some n, lastOr A pr)) ∨
      ((∀ a ∈ xs, ∀ ad, m.get a = some ad → ad.data ≠ element) ∧
        ∃ qr, get_node_loop m element fuel p pr =
          some (CC_Stat.CC_ERR_VALUE_NOT_FOUND, none, qr)) := by
  intro xs
  induction xs with
  | nil =>
    intro fuel p pr h _
    have hp : p = none := (chainSeg_nil_iff m p none).mp h
    right
    refine ⟨by simp, pr, ?_⟩
    rw [hp]
    cases fuel <;> rfl
  | cons a rest ih =>
    intro fuel p pr h hfuel
    obtain ⟨hp, nd, hnd, hc⟩ := (chainSeg_cons_iff m p none a rest).mp h
    rcases fuel with _ | f
    · simp at hfuel
    · rw [hp]
      show _ ∨ _
      by_cases hdata : nd.data = element
      · left
        refine ⟨[], a, rest, nd, by simp, hnd, hdata, ?_⟩
        simp only [get_node_loop, hnd, if_pos hdata]
        rfl
      · have hrun : get_node_loop m element (f + 1) (some a) pr =
            get_node_loop m element f nd.next (some a) := by
          simp only [get_node_loop, hnd, if_neg hdata]
        have hfuel' : rest.length ≤ f := by
          simp only [List.length_cons] at hfuel
          omega
        rcases ih f nd.next (some a) hc hfuel' with
          ⟨A, n, B, nd', hxs, hget, hdata', hrun'⟩ | ⟨hnone, qr, hrun'⟩
        · left
          refine ⟨a :: A, n, B, nd', by rw [hxs]; rfl, hget, hdata', ?_⟩
          rw [hrun, hrun', lastOr_cons]
        · right
          refine ⟨?_, qr, by rw [hrun, hrun']⟩
          intro x hx ad had
          rcases List.mem_cons.mp hx with rfl | hx
          · rw [hnd] at had
            injection had with h1
            rw [← h1]
            exact hdata
          · exact hnone x hx ad had

theorem cc_slist_remove_spec {α : Type} [DecidableEq α] (m : Mem α)
    (l : CC_SList α) (as : List Nat) (e : α) (out_null : Bool) (fuel : Nat)
    (hwf : MemWf m) (hrep : SListRep m l as) (hnd : as.Nodup)
    (hfuel : as.length ≤ fuel) :
    ∃ (st : CC_Stat) (m' : Mem α) (l' : CC_SList α) (out : Option α)
      (as' : List Nat),
      cc_slist_remove fuel m l e out_null = some (st, m', l', out) ∧
      SListRep m' l' as' ∧ as'.Nodup ∧ MemWf m' ∧ m'.fresh = m.fresh := by
  obtain ⟨hchain, htail, hsize⟩ := hrep
  rcases get_node_loop_spec m e as fuel l.head none hchain hfuel with
    ⟨A, n, B, nd, hxs, hget, hdata, hrun⟩ | ⟨hnone, qr, hrun⟩
  · rw [hxs] at hchain htail hsize hnd
    obtain ⟨nd2, m', l', hnd_get, hrun2, hrep', hnd', hwf', hfresh, _⟩ :=
      unlinkn_spec m l A B n hwf hchain htail hsize hnd
    refine ⟨CC_Stat.CC_OK, m', l', if out_null then none else some nd2.data,
      A ++ B, ?_, hrep', hnd', hwf', hfresh⟩
    have hlast : lastOr A none = A.getLast? := by
      rcases hx : A.getLast? with _ | x <;> simp [lastOr, hx]
    simp only [cc_slist_remove, get_node, hrun, hlast, hrun2]
  · refine ⟨CC_Stat.CC_ERR_VALUE_NOT_FOUND, m, l, none, as, ?_,
      ⟨hchain, htail, hsize⟩, hnd, hwf, rfl⟩
    simp only [cc_slist_remove, get_node, hrun]

theorem slistVals_congr {α : Type} (m m' : Mem α) (xs : List Nat)
    (h : ∀ x ∈ xs, (m'.get x).map SNode.data = (m.get x).map SNode.data) :
    slistVals m' xs = slistVals m xs := by
  simp only [slistVals]
  exact List.map_congr_left h

theorem cc_slist_splice_spec {α : Type} (m : Mem α) (l1 l2 : CC_SList α)
    (as1 as2 : List Nat) (hwf : MemWf m) (h1 : SListRep m l1 as1)
    (h2 : SListRep m l2 as2) (hnd : (as1 ++ as2).Nodup) :
    ∃ (m' : Mem α) (l1' l2' : CC_SList α),
      cc_slist_splice m l1 l2 = some (CC_Stat.CC_OK, m', l1', l2') ∧
      SListRep m' l1' (as1 ++ as2) ∧ (as1 ++ as2).Nodup ∧ MemWf m' ∧
      m'.fresh = m.fresh ∧
      l2'.size = 0 ∧ l2'.head = none ∧ l2'.tail = none ∧
      l1'.size = l1.size + l2.size ∧
      slistVals m' (as1 ++ as2) = slistVals m as1 ++ slistVals m as2 := by
  obtain ⟨hc1, ht1, hs1⟩ := h1
  obtain ⟨hc2, ht2, hs2⟩ := h2
  by_cases hz2 : l2.size = 0
  · have has2 : as2 = [] := List.eq_nil_of_length_eq_zero (by omega)
    subst has2
    have hh2 : l2.head = none := (chainSeg_nil_iff m l2.head none).mp hc2
    have htt2 : l2.tail = none := by simpa using ht2
    refine ⟨m, l1, l2, by simp [cc_slist_splice, hz2], ?_, by simpa using hnd,
      hwf, rfl, hz2, hh2, htt2, by omega, by simp [slistVals]⟩
    simpa using And.intro hc1 (And.intro ht1 hs1)
  · by_cases hz1 : l1.size = 0
    · have has1 : as1 = [] := List.eq_nil_of_length_eq_zero (by omega)
      subst has1
      refine ⟨m, { head := l2.head, tail := l2.tail, size := l1.size + l2.size },
        { head := none, tail := none, size := 0 },
        by simp [cc_slist_splice, hz2, hz1], ?_, by simpa using hnd,
        hwf, rfl, rfl, rfl, rfl, rfl, by simp [slistVals]⟩
      refine ⟨by simpa using hc2, by simpa using ht2, ?_⟩
      simp only [List.nil_append]
      omega
    · have has1 : as1 ≠ [] := by
        intro hx
        rw [hx] at hs1
        simp at hs1
        exact hz1 hs1
      have has2 : as2 ≠ [] := by
        intro hx
        rw [hx] at hs2
        simp at hs2
        exact hz2 hs2
      rcases List.eq_nil_or_concat as1 with h | ⟨init, t, rfl⟩
      · exact absurd h has1
      rw [List.concat_eq_append] at hc1 ht1 hs1 hnd ⊢
      have htail1 : l1.tail = some t := by
        rw [ht1, List.getLast?_concat]
      obtain ⟨q2, hinit, htseg⟩ :=
        (chainSeg_append_iff m l1.head none init [t]).mp hc1
      obtain ⟨hq2, tn, htn, hnil⟩ := (chainSeg_cons_iff m q2 none t []).mp htseg
      set m' := m.set t { tn with next := l2.head } with hm'
      have ht_nin_init : t ∉ init := by
        intro hx
        have hx1 := List.nodup_append.mp ((List.nodup_append.mp hnd).1)
        exact hx1.2.2 hx (List.mem_singleton_self t)
      have ht_nin_as2 : t ∉ as2 := by
        intro hx
        exact (List.nodup_append.mp hnd).2.2 (show t ∈ init ++ [t] by simp) hx
      have hget_t : m'.get t = some { tn with next := l2.head } := by
        rw [hm', Mem.get_set, if_pos rfl, htn]
        rfl
      have hdata_pres : ∀ x, (m'.get x).map SNode.data = (m.get x).map SNode.data := by
        intro x
        by_cases hx : x = t
        · subst hx
          rw [hget_t, htn]
          rfl
        · rw [hm', Mem.get_set, if_neg hx]
      refine ⟨m', { head := l1.head, tail := l2.tail, size := l1.size + l2.size },
        { head := none, tail := none, size := 0 },
        ?_, ?_, hnd, hwf.set _ _, rfl, rfl, rfl, rfl, rfl, ?_⟩
      · simp only [cc_slist_splice, hz2, if_neg hz2, hz1, if_neg hz1, htail1,
          htn]
        rfl
      · refine ⟨?_, ?_, ?_⟩
        · rw [List.append_assoc,
            (chainSeg_append_iff m' l1.head none init ([t] ++ as2))]
          refine ⟨some t, ?_, ?_⟩
          · show chainSeg m' l1.head (some t) init = true
            rw [hm', chainSeg_set_not_mem _ _ _ _ _ _ ht_nin_init, ← hq2]
            exact hinit
          · show chainSeg m' (some t) none (t :: as2) = true
            rw [(chainSeg_cons_iff m' (some t) none t as2)]
            refine ⟨rfl, { tn with next := l2.head }, hget_t, ?_⟩
            show chainSeg m' l2.head none as2 = true
            rw [hm', chainSeg_set_not_mem _ _ _ _ _ _ ht_nin_as2]
            exact hc2
        · show l2.tail = (init ++ [t] ++ as2).getLast?
          rw [ht2, List.append_assoc,
            getLast_append_ne_nil init ([t] ++ as2) (by simp),
            getLast_append_ne_nil [t] as2 has2]
        · simp only [List.length_append, List.length_cons,
            List.length_nil] at hs1 hs2 ⊢
          omega
      · rw [slistVals_congr m m' (init ++ [t] ++ as2) (fun x _ => hdata_pres x)]
        simp [slistVals]

theorem cc_slist_replace_at_spec {α : Type} (m : Mem α) (l : CC_SList α)
    (as : List Nat) (e : α) (index : Nat) (out_null : Bool) (hwf : MemWf m)
    (hrep : SListRep m l as) (hidx : index < l.size) :
    ∃ (n : Nat) (nd : SNode α) (m' : Mem α),
      cc_slist_replace_at m l e index out_null =
        some (CC_Stat.CC_OK, m', if out_null then none else some nd.data) ∧
      m.get n = some nd ∧
      SListRep m' l as ∧ MemWf m' ∧ m'.fresh = m.fresh := by
  obtain ⟨n, hgetn, hnode, hdecomp⟩ := get_node_at_decomp m l as index hrep hidx
  obtain ⟨hchain, htail, hsize⟩ := hrep
  have hn_mem : n ∈ as := by
    rw [hdecomp]
    simp
  obtain ⟨nd, hnd_get⟩ := chainSeg_get_some hchain n hn_mem
  refine ⟨n, nd, m.set n { nd with data := e }, ?_, hnd_get, ?_,
    hwf.set _ _, rfl⟩
  · simp only [cc_slist_replace_at, hnode, hnd_get]
  · refine ⟨?_, htail, hsize⟩
    rw [chainSeg_eq_of_next_eq m (m.set n { nd with data := e }) none as l.head]
    · exact hchain
    · intro x _
      rw [Mem.get_set]
      by_cases hx : x = n
      · subst hx
        rw [if_pos rfl, hnd_get]
        rfl
      · rw [if_neg hx]

theorem cc_slist_get_at_spec {α : Type} (m : Mem α) (l : CC_SList α)
    (as : List Nat) (index : Nat)
    (hrep : SListRep m l as) (hidx : index < l.size) :
    ∃ (n : Nat) (nd : SNode α), m.get n = some nd ∧
      cc_slist_get_at m l index false = some (CC_Stat.CC_OK, some nd.data) ∧
      cc_slist_get_at m l index true = none := by
  obtain ⟨n, hgetn, hnode, hdecomp⟩ := get_node_at_decomp m l as index hrep hidx
  obtain ⟨hchain, htail, hsize⟩ := hrep
  have hn_mem : n ∈ as := by
    rw [hdecomp]
    simp
  obtain ⟨nd, hnd_get⟩ := chainSeg_get_some hchain n hn_mem
  refine ⟨n, nd, hnd_get, ?_, ?_⟩ <;>
    simp [cc_slist_get_at, hnode, hnd_get]

theorem nodup_insert_middle {β : Type} (A B : List β) (f : β)
    (h : (A ++ B).Nodup) (hf : f ∉ A ++ B) : (A ++ f :: B).Nodup := by
  obtain ⟨hA, hB, hAB⟩ := List.nodup_append.mp h
  rw [List.mem_append] at hf
  refine List.nodup_append.mpr ⟨hA, ?_, ?_⟩
  · rw [List.nodup_cons]
    exact ⟨fun hx => hf (Or.inr hx), hB⟩
  · intro x hxA
    rw [List.mem_cons]
    rintro (rfl | hxB)
    · exact hf (Or.inl hxA)
    · exact hAB hxA hxB

theorem cc_slist_add_at_oor {α : Type} (alloc_ok : Bool) (m : Mem α)
    (l : CC_SList α) (e : α) (index : Nat) (hidx : l.size ≤ index) :
    cc_slist_add_at alloc_ok m l e index =
      some (CC_Stat.CC_ERR_OUT_OF_RANGE, m, l) := by
  have hguard : index ≥ l.size := hidx
  simp [cc_slist_add_at, get_node_at, hguard]

theorem cc_slist_add_at_alloc_fail {α : Type} (m : Mem α) (l : CC_SList α)
    (as : List Nat) (e : α) (index : Nat) (hrep : SListRep m l as)
    (hidx : index < l.size) :
    cc_slist_add_at false m l e index = some (CC_Stat.CC_ERR_ALLOC, m, l) := by
  obtain ⟨n, _, hnode, _⟩ := get_node_at_decomp m l as index hrep hidx
  simp [cc_slist_add_at, hnode]

theorem cc_slist_add_at_ok_spec {α : Type} (m : Mem α) (l : CC_SList α)
    (as : List Nat) (e : α) (index : Nat) (hwf : MemWf m)
    (hrep : SListRep m l as) (hnd : as.Nodup) (hidx : index < l.size) :
    ∃ (m' : Mem α) (l' : CC_SList α),
      cc_slist_add_at true m l e index = some (CC_Stat.CC_OK, m', l') ∧
      SListRep m' l' (as.take index ++ m.fresh :: as.drop index) ∧
      (as.take index ++ m.fresh :: as.drop index).Nodup ∧ MemWf m' ∧
      m'.fresh = m.fresh + 1 := by
  obtain ⟨n, hgetn, hnode, hdecomp⟩ := get_node_at_decomp m l as index hrep hidx
  obtain ⟨hchain, htail, hsize⟩ := hrep
  have hlen : index < as.length := by omega
  have hIdxEq : as[index] = n := by
    have h1 := List.getElem?_eq_getElem hlen
    rw [hgetn] at h1
    injection h1 with h2
    exact h2.symm
  have hdrop : as.drop index = n :: as.drop (index + 1) := by
    rw [List.drop_eq_getElem_cons hlen, hIdxEq]
  have hlt := chainSeg_lt_fresh hwf hchain
  have hfresh_nin : m.fresh ∉ as := fun hx => absurd (hlt m.fresh hx) (by omega)
  have hnd' : (as.take index ++ m.fresh :: as.drop index).Nodup := by
    apply nodup_insert_middle
    · rw [List.take_append_drop]
      exact hnd
    · rw [List.take_append_drop]
      exact hfresh_nin
  have hasne : as ≠ [] := by
    intro hx
    rw [hx] at hlen
    simp at hlen
  by_cases h0 : index = 0
  · subst h0
    have hprev : (as.take 0).getLast? = none := by simp
    rw [hprev] at hnode
    set m1 := (m.alloc { data := e, next := none }).2 with hm1
    set m2 := m1.set m.fresh { data := e, next := l.head } with hm2
    refine ⟨m2, { l with head := some m.fresh, size := l.size + 1 }, ?_, ?_,
      hnd', (hwf.alloc _).set _ _, rfl⟩
    · simp only [cc_slist_add_at, hnode, Bool.not_true, Bool.false_eq_true,
        if_false, Mem.alloc]
      rfl
    · refine ⟨?_, ?_, ?_⟩
      · simp only [List.take_zero, List.drop_zero, List.nil_append]
        rw [(chainSeg_cons_iff m2 (some m.fresh) none m.fresh as)]
        refine ⟨rfl, { data := e, next := l.head }, ?_, ?_⟩
        · rw [hm2, Mem.get_set, if_pos rfl, hm1, Mem.get_alloc, if_pos rfl]
          rfl
        · show chainSeg m2 l.head none as = true
          rw [hm2, chainSeg_set_not_mem _ _ _ _ _ _ hfresh_nin, hm1,
            chainSeg_alloc_not_mem _ _ _ _ _
              (fun x hx => fun hh => hfresh_nin (by rw [← hh]; exact hx))]
          exact hchain
      · simp only [List.take_zero, List.drop_zero, List.nil_append]
        rcases as with _ | ⟨a, rest⟩
        · exact absurd rfl hasne
        · rw [htail, List.getLast?_cons_cons]
      · simp only [List.take_zero, List.drop_zero, List.nil_append,
          List.length_cons]
        omega
  · -- index is at least 1: there is a predecessor node pv
    have hA_len : (as.take index).length = index := by
      rw [List.length_take]
      omega
    have hA_ne : as.take index ≠ [] := by
      intro hx
      rw [hx] at hA_len
      simp at hA_len
      omega
    rcases List.eq_nil_or_concat (as.take index) with hx | ⟨A0, pv, hA⟩
    · exact absurd hx hA_ne
    have hprev : (as.take index).getLast? = some pv := by
      rw [hA, List.concat_eq_append, List.getLast?_concat]
    rw [hprev] at hnode
    have hchain2 : chainSeg m l.head none ((A0 ++ [pv]) ++ n :: as.drop (index + 1)) = true := by
      rw [← List.concat_eq_append, ← hA, ← hdecomp]
      exact hchain
    obtain ⟨q, hApart, hnB⟩ :=
      (chainSeg_append_iff m l.head none (A0 ++ [pv]) (n :: as.drop (index + 1))).mp hchain2
    obtain ⟨q2, hA0, hpvseg⟩ := (chainSeg_append_iff m l.head q A0 [pv]).mp hApart
    obtain ⟨hq2, pn, hpn_get, hpv_nil⟩ := (chainSeg_cons_iff m q2 q pv []).mp hpvseg
    have hq : q = some n := chainSeg_head hnB
    have hpn_next : pn.next = some n := by
      rw [(chainSeg_nil_iff m pn.next q).mp hpv_nil, hq]
    have hpv_mem : pv ∈ as := by
      rw [← List.take_append_drop index as, hA, List.concat_eq_append]
      simp
    have hpv_ne_fresh : pv ≠ m.fresh := fun hh => hfresh_nin (hh ▸ hpv_mem)
    have hmem_sub : ∀ x, x ∈ A0 → x ∈ as := by
      intro x hx
      rw [← List.take_append_drop index as, hA, List.concat_eq_append]
      simp only [List.mem_append, List.mem_cons]
      exact Or.inl (Or.inl hx)
    have hmem_nB : ∀ x, x ∈ n :: as.drop (index + 1) → x ∈ as := by
      intro x hx
      rw [← List.take_append_drop index as, hdrop]
      exact List.mem_append_right _ hx
    have hnd_take_drop : ((A0 ++ [pv]) ++ n :: as.drop (index + 1)).Nodup := by
      rw [← List.concat_eq_append, ← hA, ← hdecomp]
      exact hnd
    have hpv_nin_A0 : pv ∉ A0 := by
      intro hx
      have h1 := List.nodup_append.mp ((List.nodup_append.mp hnd_take_drop).1)
      exact h1.2.2 hx (List.mem_singleton_self pv)
    have hpv_nin_nB : pv ∉ n :: as.drop (index + 1) := by
      intro hx
      exact (List.nodup_append.mp hnd_take_drop).2.2
        (show pv ∈ A0 ++ [pv] by simp) hx
    set m1 := (m.alloc { data := e, next := none }).2 with hm1
    have hm1_get_pv : m1.get pv = some pn := by
      rw [hm1, Mem.get_alloc, if_neg hpv_ne_fresh, hpn_get]
    set m2 := m1.set pv { pn with next := some m.fresh } with hm2
    set m3 := m2.set m.fresh { data := e, next := pn.next } with hm3
    have hm1_get_pv2 :
        (Mem.mk ((m.fresh, SNode.mk e none) :: m.heap) (m.fresh + 1)).get pv =
          some pn := hm1_get_pv
    have hrun : cc_slist_add_at true m l e index =
        some (CC_Stat.CC_OK, m3, { l with size := l.size + 1 }) := by
      simp only [cc_slist_add_at, hnode, Bool.not_true, Bool.false_eq_true,
        if_false, Mem.alloc, hm1_get_pv2]
      rfl
    have hget3_pv : m3.get pv = some { pn with next := some m.fresh } := by
      rw [hm3, Mem.get_set, if_neg hpv_ne_fresh, hm2,
        Mem.get_set, if_pos rfl, hm1_get_pv]
      rfl
    have hget3_fresh : m3.get m.fresh = some { data := e, next := pn.next } := by
      rw [hm3, Mem.get_set, if_pos rfl, hm2, Mem.get_set,
        if_neg (fun hh => hpv_ne_fresh hh.symm), hm1, Mem.get_alloc, if_pos rfl]
      rfl
    refine ⟨m3, { l with size := l.size + 1 }, hrun, ?_, hnd',
      ((hwf.alloc _).set _ _).set _ _, rfl⟩
    refine ⟨?_, ?_, ?_⟩
    · rw [hA, List.concat_eq_append, hdrop, List.append_assoc]
      rw [(chainSeg_append_iff m3 l.head none A0 ([pv] ++ m.fresh :: n :: as.drop (index + 1)))]
      refine ⟨q2, ?_, ?_⟩
      · show chainSeg m3 l.head q2 A0 = true
        rw [hm3, chainSeg_set_not_mem _ _ _ _ _ _
            (fun hx => hfresh_nin (hmem_sub _ hx)),
          hm2, chainSeg_set_not_mem _ _ _ _ _ _ hpv_nin_A0, hm1,
          chainSeg_alloc_not_mem _ _ _ _ _
            (fun x hx => fun hh => hfresh_nin (by rw [← hh]; exact hmem_sub _ hx))]
        exact hA0
      · show chainSeg m3 q2 none (pv :: m.fresh :: n :: as.drop (index + 1)) = true
        rw [(chainSeg_cons_iff m3 q2 none pv (m.fresh :: n :: as.drop (index + 1)))]
        refine ⟨hq2, { pn with next := some m.fresh }, hget3_pv, ?_⟩
        rw [(chainSeg_cons_iff m3 (some m.fresh) none m.fresh (n :: as.drop (index + 1)))]
        refine ⟨rfl, { data := e, next := pn.next }, hget3_fresh, ?_⟩
        show chainSeg m3 pn.next none (n :: as.drop (index + 1)) = true
        rw [hpn_next]
        rw [hm3, chainSeg_set_not_mem _ _ _ _ _ _
            (fun hx => hfresh_nin (hmem_nB _ hx)),
          hm2, chainSeg_set_not_mem _ _ _ _ _ _ hpv_nin_nB, hm1,
          chainSeg_alloc_not_mem _ _ _ _ _
            (fun x hx => fun hh => hfresh_nin (by rw [← hh]; exact hmem_nB _ hx))]
        rw [← hq]
        exact hnB
    · show l.tail = (as.take index ++ m.fresh :: as.drop index).getLast?
      rw [htail, hdrop]
      rw [getLast_append_ne_nil (as.take index)
        (m.fresh :: n :: as.drop (index + 1)) (by simp)]
      conv_lhs => rw [hdecomp]
      rw [getLast_append_ne_nil (as.take index) (n :: as.drop (index + 1))
        (by simp)]
      rw [List.getLast?_cons_cons]
    · show l.size + 1 = (as.take index ++ m.fresh :: as.drop index).length
      simp only [List.length_append, List.length_cons, List.length_take,
        List.length_drop]
      omega

theorem reverse_loop_spec {α : Type} :
    ∀ (as : List Nat) (fuel : Nat) (m : Mem α) (p q : Option Nat)
      (bs : List Nat),
      chainSeg m p none as = true → chainSeg m q none bs = true →
      (as ++ bs).Nodup → as.length ≤ fuel →
      ∃ (m' : Mem α) (r : Option Nat),
        reverse_loop m fuel p q = some (m', r) ∧
        chainSeg m' r none (as.reverse ++ bs) = true ∧
        m'.fresh = m.fresh ∧
        (∀ x, x ∉ as → m'.get x = m.get x) ∧
        (∀ x, (m'.get x).map SNode.data = (m.get x).map SNode.data) ∧
        (MemWf m → MemWf m') := by
  intro as
  induction as with
  | nil =>
    intro fuel m p q bs hp hq hnd hfuel
    have hp' : p = none := (chainSeg_nil_iff m p none).mp hp
    refine ⟨m, q, ?_, by simpa using hq, rfl, fun x _ => rfl, fun x => rfl,
      fun h => h⟩
    rw [hp']
    cases fuel <;> rfl
  | cons a rest ih =>
    intro fuel m p q bs hp hq hnd hfuel
    obtain ⟨hpa, nd, hnd_get, hrest⟩ := (chainSeg_cons_iff m p none a rest).mp hp
    rcases fuel with _ | f
    · simp at hfuel
    · have ha_nin_rest : a ∉ rest := (List.nodup_cons.mp (by
        have h1 : (a :: (rest ++ bs)).Nodup := by simpa using hnd
        exact h1)).1 |> fun h => by
          intro hx
          exact h (List.mem_append_left _ hx)
      have ha_nin_bs : a ∉ bs := by
        have h1 : (a :: (rest ++ bs)).Nodup := by simpa using hnd
        intro hx
        exact (List.nodup_cons.mp h1).1 (List.mem_append_right _ hx)
      have hnd_rb : (rest ++ bs).Nodup := by
        have h1 : (a :: (rest ++ bs)).Nodup := by simpa using hnd
        exact (List.nodup_cons.mp h1).2
      have ha_nin_rb : a ∉ rest ++ bs := by
        rw [List.mem_append]
        rintro (h | h)
        · exact ha_nin_rest h
        · exact ha_nin_bs h
      set m1 := m.set a { nd with next := q } with hm1
      have hrest1 : chainSeg m1 nd.next none rest = true := by
        rw [hm1, chainSeg_set_not_mem _ _ _ _ _ _ ha_nin_rest]
        exact hrest
      have habs1 : chainSeg m1 (some a) none (a :: bs) = true := by
        rw [(chainSeg_cons_iff m1 (some a) none a bs)]
        refine ⟨rfl, { nd with next := q }, ?_, ?_⟩
        · rw [hm1, Mem.get_set, if_pos rfl, hnd_get]
          rfl
        · show chainSeg m1 q none bs = true
          rw [hm1, chainSeg_set_not_mem _ _ _ _ _ _ ha_nin_bs]
          exact hq
      have hnd1 : (rest ++ a :: bs).Nodup := nodup_insert_middle rest bs a hnd_rb ha_nin_rb
      have hfuel' : rest.length ≤ f := by
        simp only [List.length_cons] at hfuel
        omega
      obtain ⟨m', r, hrun, hchain', hfresh, hframe, hdata, hmwf⟩ :=
        ih f m1 nd.next (some a) (a :: bs) hrest1 habs1 hnd1 hfuel'
      refine ⟨m', r, ?_, ?_, by rw [hfresh, hm1, Mem.set_fresh], ?_, ?_, ?_⟩
      · rw [hpa]
        show reverse_loop m (f + 1) (some a) q = some (m', r)
        simp only [reverse_loop, hnd_get]
        exact hrun
      · rw [List.reverse_cons, List.append_assoc]
        simpa using hchain'
      · intro x hx
        have hxa : x ≠ a := fun hh => hx (by rw [hh]; exact List.mem_cons_self _ _)
        have hxrest : x ∉ rest := fun hh => hx (List.mem_cons_of_mem _ hh)
        rw [hframe x hxrest, hm1, Mem.get_set, if_neg hxa]
      · intro x
        rw [hdata x, hm1, Mem.get_set]
        by_cases hxa : x = a
        · subst hxa
          rw [if_pos rfl, hnd_get]
          rfl
        · rw [if_neg hxa]
      · intro hwf
        exact hmwf (hwf.set _ _)

theorem cc_slist_reverse_spec {α : Type} (m : Mem α) (l : CC_SList α)
    (as : List Nat) (fuel : Nat) (hwf : MemWf m) (hrep : SListRep m l as)
    (hnd : as.Nodup) (hfuel : as.length ≤ fuel) :
    ∃ (m' : Mem α) (l' : CC_SList α),
      cc_slist_reverse fuel m l = some (m', l') ∧
      SListRep m' l' as.reverse ∧ as.reverse.Nodup ∧ MemWf m' ∧
      m'.fresh = m.fresh ∧ l'.tail = l.head ∧
      (∀ x, (m'.get x).map SNode.data = (m.get x).map SNode.data) := by
  obtain ⟨hchain, htail, hsize⟩ := hrep
  by_cases hsz : l.size = 0 ∨ l.size = 1
  · have hasrev : as.reverse = as := by
      rcases as with _ | ⟨a, rest⟩
      · rfl
      · rcases rest with _ | ⟨b, rest2⟩
        · rfl
        · rw [hsize] at hsz
          simp at hsz
    have htl : l.tail = l.head := by
      rcases as with _ | ⟨a, rest⟩
      · rw [htail, (chainSeg_nil_iff m l.head none).mp hchain]
        rfl
      · rcases rest with _ | ⟨b, rest2⟩
        · rw [htail, chainSeg_head hchain]
          rfl
        · rw [hsize] at hsz
          simp at hsz
    refine ⟨m, l, by simp [cc_slist_reverse, hsz], ?_,
      by rw [hasrev]; exact hnd, hwf, rfl, htl, fun x => rfl⟩
    rw [hasrev]
    exact ⟨hchain, htail, hsize⟩
  · obtain ⟨m', r, hrun, hchain', hfresh, _, hdata, hmwf⟩ :=
      reverse_loop_spec as fuel m l.head none [] hchain (by simp [chainSeg])
        (by simpa using hnd) hfuel
    refine ⟨m', { l with tail := l.head, head := r }, ?_, ?_,
      List.nodup_reverse.mpr hnd, hmwf hwf, hfresh, rfl, hdata⟩
    · simp only [cc_slist_reverse, hsz, if_neg hsz, hrun]
      simp
    · refine ⟨by simpa using hchain', ?_, ?_⟩
      · show l.head = as.reverse.getLast?
        rw [List.getLast?_reverse]
        rcases as with _ | ⟨a, rest⟩
        · rw [hsize] at hsz
          simp at hsz
        · rw [chainSeg_head hchain]
          rfl
      · show l.size = as.reverse.length
        rw [List.length_reverse]
        exact hsize

theorem unlinkn_all_loop_spec {α : Type} :
    ∀ (as : List Nat) (fuel : Nat) (m : Mem α) (p : Option Nat) (size : Nat),
      chainSeg m p none as = true → as.Nodup → as.length ≤ fuel →
      ∃ m', unlinkn_all_loop m fuel p size = some (m', size - as.length) ∧
        m'.fresh = m.fresh ∧ (MemWf m → MemWf m') := by
  intro as
  induction as with
  | nil =>
    intro fuel m p size hp _ _
    have hp' : p = none := (chainSeg_nil_iff m p none).mp hp
    refine ⟨m, ?_, rfl, fun h => h⟩
    rw [hp']
    cases fuel <;> rfl
  | cons a rest ih =>
    intro fuel m p size hp hnd hfuel
    obtain ⟨hpa, nd, hnd_get, hrest⟩ := (chainSeg_cons_iff m p none a rest).mp hp
    rcases fuel with _ | f
    · simp at hfuel
    · have ha_nin : a ∉ rest := (List.nodup_cons.mp hnd).1
      have hrest1 : chainSeg (m.free a) nd.next none rest = true := by
        rw [chainSeg_free_not_mem _ _ _ _ _ ha_nin]
        exact hrest
      obtain ⟨m', hrun, hfresh, hmwf⟩ :=
        ih f (m.free a) nd.next (size - 1) hrest1 (List.nodup_cons.mp hnd).2
          (by simp only [List.length_cons] at hfuel; omega)
      have harith : size - 1 - rest.length = size - (a :: rest).length := by
        simp only [List.length_cons]
        omega
      refine ⟨m', ?_, by rw [hfresh, Mem.free_fresh], fun h => hmwf (h.free a)⟩
      rw [hpa]
      show unlinkn_all_loop m (f + 1) (some a) size = some (m', size - (a :: rest).length)
      simp only [unlinkn_all_loop, hnd_get]
      rw [hrun, harith]

theorem cc_slist_remove_all_spec {α : Type} (m : Mem α) (l : CC_SList α)
    (as : List Nat) (fuel : Nat) (hwf : MemWf m) (hrep : SListRep m l as)
    (hnd : as.Nodup) (hfuel : as.length ≤ fuel) :
    ∃ (st : CC_Stat) (m' : Mem α) (l' : CC_SList α),
      cc_slist_remove_all fuel m l = some (st, m', l') ∧
      SListWf m' l' ∧ MemWf m' ∧ m'.fresh = m.fresh ∧
      (l.size ≠ 0 → l'.size = 0 ∧ l'.head = none ∧ l'.tail = none) := by
  obtain ⟨hchain, htail, hsize⟩ := hrep
  by_cases hsz : l.size = 0
  · refine ⟨CC_Stat.CC_ERR_VALUE_NOT_FOUND, m, l,
      by simp [cc_slist_remove_all, hsz], ⟨as, ⟨hchain, htail, hsize⟩, hnd⟩,
      hwf, rfl, fun h => absurd hsz h⟩
  · obtain ⟨m', hrun, hfresh, hmwf⟩ :=
      unlinkn_all_loop_spec as fuel m l.head l.size hchain hnd hfuel
    have hzero : l.size - as.length = 0 := by omega
    rw [hzero] at hrun
    refine ⟨CC_Stat.CC_OK, m', { size := 0, head := none, tail := none },
      ?_, ⟨[], ⟨by simp [chainSeg], by simp, by simp⟩, by simp⟩,
      hmwf hwf, hfresh, fun _ => ⟨rfl, rfl, rfl⟩⟩
    simp only [cc_slist_remove_all, hsz, if_neg hsz, hrun]
    simp

theorem copy_loop_spec {α : Type} :
    ∀ (src : List Nat) (fuel : Nat) (m : Mem α) (copy : CC_SList α)
      (cas : List Nat) (p : Option Nat),
      MemWf m → chainSeg m p none src = true → SListRep m copy cas →
      cas.Nodup → (∀ x ∈ src, x ∉ cas) → src.length ≤ fuel →
      ∃ (m' : Mem α) (copy' : CC_SList α) (cas' : List Nat),
        copy_loop true fuel m copy p = some (CC_Stat.CC_OK, m', copy') ∧
        SListRep m' copy' cas' ∧ cas'.Nodup ∧ MemWf m' ∧
        m.fresh ≤ m'.fresh ∧
        (∀ x, x < m.fresh → x ∉ cas → m'.get x = m.get x) := by
  intro src
  induction src with
  | nil =>
    intro fuel m copy cas p hwf hp hrep hnd _ _
    have hp' : p = none := (chainSeg_nil_iff m p none).mp hp
    refine ⟨m, copy, cas, ?_, hrep, hnd, hwf, le_refl _, fun x _ _ => rfl⟩
    rw [hp']
    cases fuel <;> rfl
  | cons a rest ih =>
    intro fuel m copy cas p hwf hp hrep hnd hdisj hfuel
    obtain ⟨hpa, nd, hnd_get, hrest⟩ := (chainSeg_cons_iff m p none a rest).mp hp
    rcases fuel with _ | f
    · simp at hfuel
    · have hlt := chainSeg_lt_fresh hwf hp
      obtain ⟨m1, copy1, hrun1, hrep1, hnd1, hwf1, hfresh1, hframe1, _⟩ :=
        cc_slist_add_last_spec m copy cas nd.data hwf hrep hnd
      have hrest1 : chainSeg m1 nd.next none rest = true := by
        rw [chainSeg_eq_of_get_eq m m1 none rest nd.next]
        · exact hrest
        · intro b hb
          exact hframe1 b (hdisj b (List.mem_cons_of_mem _ hb))
            (fun hh => absurd (hlt b (List.mem_cons_of_mem _ hb)) (by omega))
      have hdisj1 : ∀ x ∈ rest, x ∉ cas ++ [m.fresh] := by
        intro x hx
        rw [List.mem_append, List.mem_singleton]
        rintro (h | h)
        · exact hdisj x (List.mem_cons_of_mem _ hx) h
        · exact absurd (hlt x (List.mem_cons_of_mem _ hx)) (by omega)
      obtain ⟨m', copy', cas', hrun, hrep', hnd', hwf', hfresh', hframe'⟩ :=
        ih f m1 copy1 (cas ++ [m.fresh]) nd.next hwf1 hrest1 hrep1 hnd1 hdisj1
          (by simp only [List.length_cons] at hfuel; omega)
      refine ⟨m', copy', cas', ?_, hrep', hnd', hwf', ?_, ?_⟩
      · rw [hpa]
        show copy_loop true (f + 1) m copy (some a) = some (CC_Stat.CC_OK, m', copy')
        simp only [copy_loop, hnd_get, hrun1]
        exact hrun
      · rw [hfresh1] at hfresh'
        omega
      · intro x hxlt hxcas
        rw [hframe' x (by omega : x < m1.fresh) ?_,
          hframe1 x hxcas (by omega)]
        rw [List.mem_append, List.mem_singleton]
        rintro (h | h)
        · exact hxcas h
        · omega

theorem cc_slist_copy_shallow_spec {α : Type} (m : Mem α) (l : CC_SList α)
    (as : List Nat) (fuel : Nat) (hwf : MemWf m) (hrep : SListRep m l as)
    (hfuel : as.length ≤ fuel) :
    ∃ (m' : Mem α) (copy : CC_SList α) (cas : List Nat),
      cc_slist_copy_shallow fuel true m l = some (CC_Stat.CC_OK, m', some copy) ∧
      SListRep m' copy cas ∧ cas.Nodup ∧ MemWf m' ∧
      SListRep m' l as := by
  obtain ⟨hchain, htail, hsize⟩ := hrep
  have hlt := chainSeg_lt_fresh hwf hchain
  have hrep0 : SListRep m cc_slist_new_list ([] : List Nat) := by
    refine ⟨by simp [chainSeg, cc_slist_new_list], by simp [cc_slist_new_list],
      by simp [cc_slist_new_list]⟩
  obtain ⟨m', copy', cas', hrun, hrep', hnd', hwf', _, hframe⟩ :=
    copy_loop_spec as fuel m cc_slist_new_list [] l.head hwf hchain hrep0
      (by simp) (by simp) hfuel
  refine ⟨m', copy', cas', ?_, hrep', hnd', hwf', ?_⟩
  · simp only [cc_slist_copy_shallow, Bool.not_true, Bool.false_eq_true,
      if_false, hrun]
  · refine ⟨?_, htail, hsize⟩
    rw [chainSeg_eq_of_get_eq m m' none as l.head]
    · exact hchain
    · intro b hb
      exact hframe b (hlt b hb) (by simp)

/- The structural invariant as the specification states it. -/
def slistInvProps {α : Type} (m : Mem α) (l : CC_SList α) : Prop :=
  (l.size = 0 ↔ (l.head = none ∧ l.tail = none)) ∧
  (l.size ≠ 0 →
    stepN m (l.size - 1) l.head = l.tail ∧
    (∀ k, k < l.size - 1 → stepN m k l.head ≠ l.tail) ∧
    ∃ t nd, l.tail = some t ∧ m.get t = some nd ∧ nd.next = none)

theorem slistWf_invProps {α : Type} (m : Mem α) (l : CC_SList α)
    (h : SListWf m l) : slistInvProps m l := by
  obtain ⟨as, ⟨hchain, htail, hsize⟩, hnd⟩ := h
  constructor
  · constructor
    · intro hz
      have hasnil : as = [] := List.eq_nil_of_length_eq_zero (by omega)
      subst hasnil
      exact ⟨(chainSeg_nil_iff m l.head none).mp hchain, by simpa using htail⟩
    · rintro ⟨hh, _⟩
      rw [hh] at hchain
      rw [hsize, chainSeg_none_start hchain]
      rfl
  · intro hz
    have hlen : 0 < as.length := by omega
    have hstep : stepN m (l.size - 1) l.head = as[l.size - 1]? :=
      chain_stepN m as l.head none hchain (l.size - 1) (by omega)
    refine ⟨?_, ?_, ?_⟩
    · rw [hstep, htail, List.getLast?_eq_getElem?, hsize]
    · intro k hk
      rw [chain_stepN m as l.head none hchain k (by omega), htail,
        List.getLast?_eq_getElem?]
      have hklen : k < as.length := by omega
      have hlast : as.length - 1 < as.length := by omega
      rw [List.getElem?_eq_getElem hklen, List.getElem?_eq_getElem hlast]
      intro hcontra
      injection hcontra with hcontra
      have := hnd.getElem_inj_iff.mp hcontra
      omega
    · rcases List.eq_nil_or_concat as with rfl | ⟨init, t, rfl⟩
      · simp at hlen
      · rw [List.concat_eq_append] at hchain htail
        obtain ⟨nd, hget, hnext⟩ := chainSeg_last_next_none hchain
        exact ⟨t, nd, by rw [htail, List.getLast?_concat], hget, hnext⟩

/- Concrete witness data for the linked-list claims: a heap holding two
disjoint chains 0 -> 1 (data 10, 11) and 2 -> 3 (data 20, 21). -/
def memW : Mem Nat :=
  { heap := [(0, { data := 10, next := some 1 }), (1, { data := 11, next := none }),
             (2, { data := 20, next := some 3 }), (3, { data := 21, next := none })],
    fresh := 4 }

def lW1 : CC_SList Nat := { size := 2, head := some 0, tail := some 1 }

def lW2 : CC_SList Nat := { size := 2, head := some 2, tail := some 3 }

/-- C5: cc_slist_splice on two well-represented lists returns CC_OK; the
receiving list is represented by the first list's node chain followed by the
second list's node chain, its stored element sequence is the concatenation of
the two original element sequences, its size is the sum of the two original
sizes, and the source list is emptied (size 0, head and tail none). -/
theorem claim_C5 {α : Type} (m : Mem α) (l1 l2 : CC_SList α)
    (as1 as2 : List Nat) (hwf : MemWf m) (h1 : SListRep m l1 as1)
    (h2 : SListRep m l2 as2) (hnd : (as1 ++ as2).Nodup) :
    ∃ (m' : Mem α) (l1' l2' : CC_SList α),
      cc_slist_splice m l1 l2 = some (CC_Stat.CC_OK, m', l1', l2') ∧
      SListRep m' l1' (as1 ++ as2) ∧
      slistVals m' (as1 ++ as2) = slistVals m as1 ++ slistVals m as2 ∧
      l1'.size = l1.size + l2.size ∧
      l2'.size = 0 ∧ l2'.head = none ∧ l2'.tail = none := by
  obtain ⟨m', l1', l2', hrun, hrep, _, _, _, hs2, hh2, ht2, hs1, hvals⟩ :=
    cc_slist_splice_spec m l1 l2 as1 as2 hwf h1 h2 hnd
  exact ⟨m', l1', l2', hrun, hrep, hvals, hs1, hs2, hh2, ht2⟩

theorem claim_C5_witness :
    ∃ (m' : Mem Nat) (l1' l2' : CC_SList Nat),
      cc_slist_splice memW lW1 lW2 = some (CC_Stat.CC_OK, m', l1', l2') ∧
      SListRep m' l1' ([0, 1] ++ [2, 3]) ∧
      slistVals m' ([0, 1] ++ [2, 3]) =
        slistVals memW [0, 1] ++ slistVals memW [2, 3] ∧
      l1'.size = lW1.size + lW2.size ∧
      l2'.size = 0 ∧ l2'.head = none ∧ l2'.tail = none :=
  claim_C5 memW lW1 lW2 [0, 1] [2, 3]
    (show ∀ e ∈ memW.heap, e.1 < memW.fresh by decide)
    ⟨by decide, by decide, by decide⟩
    ⟨by decide, by decide, by decide⟩
    (by decide)

/-- C7: the list's cc_slist_add_at reports CC_ERR_OUT_OF_RANGE exactly when
index >= size (so index == size is rejected on any list and any index is
rejected on an empty list), and leaves memory and list unchanged in that
case; the array's cc_array_add_at at index == size instead behaves as a plain
cc_array_add, which never reports CC_ERR_OUT_OF_RANGE. -/
theorem claim_C7 {α β : Type} (alloc_ok : Bool) (m : Mem α) (l : CC_SList α)
    (as : List Nat) (e : α) (index : Nat) (hwf : MemWf m)
    (hrep : SListRep m l as) (hnd : as.Nodup) (ar : CC_Array β) (x : β) :
    (∃ (st : CC_Stat) (m' : Mem α) (l' : CC_SList α),
      cc_slist_add_at alloc_ok m l e index = some (st, m', l') ∧
      (st = CC_Stat.CC_ERR_OUT_OF_RANGE ↔ l.size ≤ index) ∧
      (l.size ≤ index → m' = m ∧ l' = l)) ∧
    cc_array_add_at alloc_ok ar x (cc_array_size ar) =
      cc_array_add alloc_ok ar x ∧
    (cc_array_add alloc_ok ar x).1 ≠ CC_Stat.CC_ERR_OUT_OF_RANGE := by
  refine ⟨?_, cc_array_add_at_eq_add alloc_ok ar x (cc_array_size ar) rfl,
    cc_array_add_fst_ne_oor alloc_ok ar x⟩
  by_cases hle : l.size ≤ index
  · exact ⟨CC_Stat.CC_ERR_OUT_OF_RANGE, m, l,
      cc_slist_add_at_oor alloc_ok m l e index hle,
      iff_of_true rfl hle, fun _ => ⟨rfl, rfl⟩⟩
  · have hlt : index < l.size := by omega
    cases alloc_ok with
    | false =>
        exact ⟨CC_Stat.CC_ERR_ALLOC, m, l,
          cc_slist_add_at_alloc_fail m l as e index hrep hlt,
          iff_of_false (by decide) hle, fun h => absurd h hle⟩
    | true =>
        obtain ⟨m', l', hrun, _, _, _, _⟩ :=
          cc_slist_add_at_ok_spec m l as e index hwf hrep hnd hlt
        exact ⟨CC_Stat.CC_OK, m', l', hrun,
          iff_of_false (by decide) hle, fun h => absurd h hle⟩

def sampleC7 : CC_Array Nat :=
  { capacity := 8, exp_factor := 2, buffer := [1, 2, 3] }

theorem claim_C7_witness :
    (∃ (st : CC_Stat) (m' : Mem Nat) (l' : CC_SList Nat),
      cc_slist_add_at true memW lW1 99 2 = some (st, m', l') ∧
      (st = CC_Stat.CC_ERR_OUT_OF_RANGE ↔ lW1.size ≤ 2) ∧
      (lW1.size ≤ 2 → m' = memW ∧ l' = lW1)) ∧
    cc_array_add_at true sampleC7 7 (cc_array_size sampleC7) =
      cc_array_add true sampleC7 7 ∧
    (cc_array_add true sampleC7 7).1 ≠ CC_Stat.CC_ERR_OUT_OF_RANGE :=
  claim_C7 true memW lW1 [0, 1] 99 2
    (show ∀ e ∈ memW.heap, e.1 < memW.fresh by decide)
    ⟨by decide, by decide, by decide⟩ (by decide) sampleC7 7

/-- C8: reversing twice restores the original content of both containers:
cc_array_reverse is an involution on arrays, and for a well-represented list
two runs of cc_slist_reverse restore the original representation (same node
chain, head, tail, size and stored element sequence); after a single
cc_slist_reverse the tail is the node that was previously the head. -/
theorem claim_C8 {α β : Type} (m : Mem α) (l : CC_SList α) (as : List Nat)
    (fuel : Nat) (hwf : MemWf m) (hrep : SListRep m l as) (hnd : as.Nodup)
    (hfuel : as.length ≤ fuel) (ar : CC_Array β) :
    cc_array_reverse (cc_array_reverse ar) = ar ∧
    ∃ (m1 m2 : Mem α) (l1 l2 : CC_SList α),
      cc_slist_reverse fuel m l = some (m1, l1) ∧
      l1.tail = l.head ∧
      cc_slist_reverse fuel m1 l1 = some (m2, l2) ∧
      SListRep m2 l2 as ∧
      l2.head = l.head ∧ l2.tail = l.tail ∧ l2.size = l.size ∧
      slistVals m2 as = slistVals m as := by
  refine ⟨cc_array_reverse_reverse ar, ?_⟩
  obtain ⟨m1, l1, hrun1, hrep1, hnd1, hwf1, _, htl1, hframe1⟩ :=
    cc_slist_reverse_spec m l as fuel hwf hrep hnd hfuel
  obtain ⟨m2, l2, hrun2, hrep2, _, hwf2, _, htl2, hframe2⟩ :=
    cc_slist_reverse_spec m1 l1 as.reverse fuel hwf1 hrep1 hnd1
      (by rw [List.length_reverse]; exact hfuel)
  rw [List.reverse_reverse] at hrep2
  have hvals : slistVals m2 as = slistVals m as := by
    have h1 : slistVals m1 as = slistVals m as :=
      slistVals_congr m m1 as (fun x _ => hframe1 x)
    have h2 : slistVals m2 as = slistVals m1 as :=
      slistVals_congr m1 m2 as (fun x _ => hframe2 x)
    rw [h2, h1]
  obtain ⟨hc2, ht2, hs2⟩ := hrep2
  obtain ⟨hc, ht, hs⟩ := hrep
  refine ⟨m1, m2, l1, l2, hrun1, htl1, hrun2, ⟨hc2, ht2, hs2⟩, ?_,
    by rw [ht2, ht], by rw [hs2, hs], hvals⟩
  rcases as with _ | ⟨a, rest⟩
  · rw [(chainSeg_nil_iff m2 l2.head none).mp hc2,
      (chainSeg_nil_iff m l.head none).mp hc]
  · rw [chainSeg_head hc2, chainSeg_head hc]

def sampleC8 : CC_Array Nat :=
  { capacity := 8, exp_factor := 2, buffer := [4, 5, 6] }

theorem claim_C8_witness :
    cc_array_reverse (cc_array_reverse sampleC8) = sampleC8 ∧
    ∃ (m1 m2 : Mem Nat) (l1 l2 : CC_SList Nat),
      cc_slist_reverse 2 memW lW1 = some (m1, l1) ∧
      l1.tail = lW1.head ∧
      cc_slist_reverse 2 m1 l1 = some (m2, l2) ∧
      SListRep m2 l2 [0, 1] ∧
      l2.head = lW1.head ∧ l2.tail = lW1.tail ∧ l2.size = lW1.size ∧
      slistVals m2 [0, 1] = slistVals memW [0, 1] :=
  claim_C8 memW lW1 [0, 1] 2
    (show ∀ e ∈ memW.heap, e.1 < memW.fresh by decide)
    ⟨by decide, by decide, by decide⟩ (by decide) (by decide) sampleC8

/- The out parameter of the replace/remove operations is genuinely nullable:
the call with a NULL out slot returns the same status and the same resulting
state as the call with a real slot, merely discarding the value.  The get_at
operations are different: they store through out unconditionally (see
cc_array_get_at and cc_slist_get_at above), so a NULL out slot crashes. -/

theorem cc_slist_replace_at_out_null {α : Type} (m : Mem α) (l : CC_SList α)
    (e : α) (index : Nat) :
    cc_slist_replace_at m l e index true =
      (cc_slist_replace_at m l e index false).map
        (fun r => (r.1, r.2.1, none)) := by
  rcases hg : get_node_at m l index with _ | ⟨st, node, prev⟩
  · simp [cc_slist_replace_at, hg]
  · rcases node with _ | p
    · cases st <;> simp [cc_slist_replace_at, hg]
    · rcases hm : m.get p with _ | nd <;>
        cases st <;> simp [cc_slist_replace_at, hg, hm]

theorem cc_slist_remove_at_out_null {α : Type} (m : Mem α) (l : CC_SList α)
    (index : Nat) :
    cc_slist_remove_at m l index true =
      (cc_slist_remove_at m l index false).map
        (fun r => (r.1, r.2.1, r.2.2.1, none)) := by
  rcases hg : get_node_at m l index with _ | ⟨st, node, prev⟩
  · simp [cc_slist_remove_at, hg]
  · rcases node with _ | p
    · cases st <;> simp [cc_slist_remove_at, hg]
    · rcases hu : unlinkn m l p prev with _ | ⟨v, m1, l1⟩ <;>
        cases st <;> simp [cc_slist_remove_at, hg, hu]

theorem cc_slist_remove_first_out_null {α : Type} (m : Mem α)
    (l : CC_SList α) :
    cc_slist_remove_first m l true =
      (cc_slist_remove_first m l false).map
        (fun r => (r.1, r.2.1, r.2.2.1, none)) := by
  by_cases hz : l.size = 0
  · simp [cc_slist_remove_first, hz]
  · rcases hh : l.head with _ | h
    · simp [cc_slist_remove_first, hz, hh]
    · rcases hu : unlinkn m l h none with _ | ⟨v, m1, l1⟩ <;>
        simp [cc_slist_remove_first, hz, hh, hu]

theorem cc_slist_remove_out_null {α : Type} [DecidableEq α] (fuel : Nat)
    (m : Mem α) (l : CC_SList α) (e : α) :
    cc_slist_remove fuel m l e true =
      (cc_slist_remove fuel m l e false).map
        (fun r => (r.1, r.2.1, r.2.2.1, none)) := by
  rcases hg : get_node fuel m l e with _ | ⟨st, node, prev⟩
  · simp [cc_slist_remove, hg]
  · rcases node with _ | p
    · cases st <;> simp [cc_slist_remove, hg]
    · rcases hu : unlinkn m l p prev with _ | ⟨v, m1, l1⟩ <;>
        cases st <;> simp [cc_slist_remove, hg, hu]

/-- C9 (amended): the replace and remove operations of both containers accept
a null (opted-out) output slot: the status and the resulting container state
equal those of the call with a real slot, the retrieved value being merely
discarded, and on a valid index replace_at/remove_at with a null slot still
succeed with CC_OK; but get_at on both containers stores through the output
slot unconditionally, so it requires a non-null slot: with a null slot it
crashes (none) even on a valid index, while with a real slot it returns the
element. -/
theorem claim_C9 {α β : Type} [DecidableEq α] [DecidableEq β] (m : Mem α)
    (l : CC_SList α) (as : List Nat) (index : Nat) (e : α) (fuel : Nat)
    (hwf : MemWf m) (hrep : SListRep m l as) (hnd : as.Nodup)
    (hidx : index < l.size) (ar : CC_Array β) (x : β) (aidx : Nat)
    (haidx : aidx < cc_array_size ar) :
    (cc_array_replace_at ar x aidx true =
      ((cc_array_replace_at ar x aidx false).1,
       (cc_array_replace_at ar x aidx false).2.1, none) ∧
     (cc_array_replace_at ar x aidx true).1 = CC_Stat.CC_OK) ∧
    (cc_array_remove_at ar aidx true =
      ((cc_array_remove_at ar aidx false).1,
       (cc_array_remove_at ar aidx false).2.1, none) ∧
     (cc_array_remove_at ar aidx true).1 = CC_Stat.CC_OK) ∧
    cc_array_remove ar x true =
      ((cc_array_remove ar x false).1,
       (cc_array_remove ar x false).2.1, none) ∧
    cc_slist_replace_at m l e index true =
      (cc_slist_replace_at m l e index false).map
        (fun r => (r.1, r.2.1, none)) ∧
    cc_slist_remove_at m l index true =
      (cc_slist_remove_at m l index false).map
        (fun r => (r.1, r.2.1, r.2.2.1, none)) ∧
    cc_slist_remove_first m l true =
      (cc_slist_remove_first m l false).map
        (fun r => (r.1, r.2.1, r.2.2.1, none)) ∧
    cc_slist_remove fuel m l e true =
      (cc_slist_remove fuel m l e false).map
        (fun r => (r.1, r.2.1, r.2.2.1, none)) ∧
    (∃ (m' : Mem α) (out : Option α),
      cc_slist_replace_at m l e index true = some (CC_Stat.CC_OK, m', out) ∧
      out = none) ∧
    (∃ (m' : Mem α) (l' : CC_SList α) (out : Option α),
      cc_slist_remove_at m l index true = some (CC_Stat.CC_OK, m', l', out) ∧
      out = none) ∧
    cc_array_get_at ar aidx true = none ∧
    cc_array_get_at ar aidx false = some (CC_Stat.CC_OK, ar.buffer[aidx]?) ∧
    cc_slist_get_at m l index true = none ∧
    (∃ v, cc_slist_get_at m l index false = some (CC_Stat.CC_OK, some v)) := by
  have hn : ¬ aidx ≥ cc_array_size ar := by omega
  obtain ⟨n0, nd0, m0, hrun0, _, _, _, _⟩ :=
    cc_slist_replace_at_spec m l as e index true hwf hrep hidx
  obtain ⟨nd1, m1, l1, hrun1, _, _, _, _⟩ :=
    cc_slist_remove_at_spec m l as index true hwf hrep hnd hidx
  obtain ⟨n2, nd2, hget2, hfalse2, htrue2⟩ :=
    cc_slist_get_at_spec m l as index hrep hidx
  refine ⟨⟨by simp [cc_array_replace_at, hn], by simp [cc_array_replace_at, hn]⟩,
    ⟨by simp [cc_array_remove_at, hn], by simp [cc_array_remove_at, hn]⟩,
    ?_, cc_slist_replace_at_out_null m l e index,
    cc_slist_remove_at_out_null m l index,
    cc_slist_remove_first_out_null m l,
    cc_slist_remove_out_null fuel m l e,
    ⟨m0, if true then none else some nd0.data, hrun0, rfl⟩,
    ⟨m1, l1, if true then none else some nd1.data, hrun1, rfl⟩,
    by simp [cc_array_get_at, hn],
    by simp [cc_array_get_at, hn],
    htrue2, ⟨nd2.data, hfalse2⟩⟩
  rcases hio : cc_array_index_of ar x with ⟨st, oi⟩
  cases st <;> rcases oi with _ | i <;> simp [cc_array_remove, hio]

def sampleC9 : CC_Array Nat :=
  { capacity := 8, exp_factor := 2, buffer := [1, 2] }

theorem claim_C9_witness :
    (cc_array_replace_at sampleC9 2 1 true =
      ((cc_array_replace_at sampleC9 2 1 false).1,
       (cc_array_replace_at sampleC9 2 1 false).2.1, none) ∧
     (cc_array_replace_at sampleC9 2 1 true).1 = CC_Stat.CC_OK) ∧
    (cc_array_remove_at sampleC9 1 true =
      ((cc_array_remove_at sampleC9 1 false).1,
       (cc_array_remove_at sampleC9 1 false).2.1, none) ∧
     (cc_array_remove_at sampleC9 1 true).1 = CC_Stat.CC_OK) ∧
    cc_array_remove sampleC9 2 true =
      ((cc_array_remove sampleC9 2 false).1,
       (cc_array_remove sampleC9 2 false).2.1, none) ∧
    cc_slist_replace_at memW lW1 77 0 true =
      (cc_slist_replace_at memW lW1 77 0 false).map
        (fun r => (r.1, r.2.1, none)) ∧
    cc_slist_remove_at memW lW1 0 true =
      (cc_slist_remove_at memW lW1 0 false).map
        (fun r => (r.1, r.2.1, r.2.2.1, none)) ∧
    cc_slist_remove_first memW lW1 true =
      (cc_slist_remove_first memW lW1 false).map
        (fun r => (r.1, r.2.1, r.2.2.1, none)) ∧
    cc_slist_remove 2 memW lW1 77 true =
      (cc_slist_remove 2 memW lW1 77 false).map
        (fun r => (r.1, r.2.1, r.2.2.1, none)) ∧
    (∃ (m' : Mem Nat) (out : Option Nat),
      cc_slist_replace_at memW lW1 77 0 true = some (CC_Stat.CC_OK, m', out) ∧
      out = none) ∧
    (∃ (m' : Mem Nat) (l' : CC_SList Nat) (out : Option Nat),
      cc_slist_remove_at memW lW1 0 true = some (CC_Stat.CC_OK, m', l', out) ∧
      out = none) ∧
    cc_array_get_at sampleC9 1 true = none ∧
    cc_array_get_at sampleC9 1 false =
      some (CC_Stat.CC_OK, sampleC9.buffer[1]?) ∧
    cc_slist_get_at memW lW1 0 true = none ∧
    (∃ v, cc_slist_get_at memW lW1 0 false = some (CC_Stat.CC_OK, some v)) :=
  claim_C9 memW lW1 [0, 1] 0 77 2
    (show ∀ e ∈ memW.heap, e.1 < memW.fresh by decide)
    ⟨by decide, by decide, by decide⟩ (by decide) (by decide)
    sampleC9 2 1 (by decide)

def sampleOne : CC_Array Nat :=
  { capacity := 8, exp_factor := 2, buffer := [42] }

/-- C9 counterexample to the claim as stated: get_at does not accept a null
output slot.  On a one-element array, cc_array_get_at at the valid index 0
crashes (none) when the out slot is null, while the same call with a real
slot succeeds and yields the element; so the claim's "the caller may pass no
output slot and the operation still succeeds" fails for get_at. -/
theorem claim_C9_counterexample :
    cc_array_get_at sampleOne 0 true = none ∧
    cc_array_get_at sampleOne 0 false = some (CC_Stat.CC_OK, some 42) :=
  ⟨rfl, rfl⟩

theorem wf_and_props {α : Type} {m : Mem α} {l : CC_SList α}
    (hwf : MemWf m) (hswf : SListWf m l) :
    WfState m l ∧ slistInvProps m l :=
  ⟨⟨hwf, hswf⟩, slistWf_invProps m l hswf⟩

/-- C6: the structural invariant of the list (size = 0 iff head and tail are
both none; when non-empty, following forward links from head reaches tail
after exactly size - 1 steps and never earlier; tail's forward link is none)
holds of every well-represented list, and every list operation preserves
well-representedness, hence the invariant: add_first, add_last, add_at (at
any index), splice, remove, remove_at (at any index), remove_first,
remove_all, replace_at (at any index), reverse and copy_shallow all return a
state satisfying WfState and hence slistInvProps. -/
theorem claim_C6 {α : Type} [DecidableEq α] (m : Mem α) (l l2 : CC_SList α)
    (as as2 : List Nat) (e : α) (index : Nat) (out_null : Bool) (fuel : Nat)
    (hwf : MemWf m) (hrep : SListRep m l as) (hnd : as.Nodup)
    (hrep2 : SListRep m l2 as2) (hnd12 : (as ++ as2).Nodup)
    (hfuel : as.length ≤ fuel) :
    slistInvProps m l ∧
    (∃ m' l', cc_slist_add_first true m l e = (CC_Stat.CC_OK, m', l') ∧
      WfState m' l' ∧ slistInvProps m' l') ∧
    (∃ m' l', cc_slist_add_last true m l e = some (CC_Stat.CC_OK, m', l') ∧
      WfState m' l' ∧ slistInvProps m' l') ∧
    (∃ st m' l', cc_slist_add_at true m l e index = some (st, m', l') ∧
      WfState m' l' ∧ slistInvProps m' l') ∧
    (∃ m' l1' l2', cc_slist_splice m l l2 = some (CC_Stat.CC_OK, m', l1', l2') ∧
      WfState m' l1' ∧ slistInvProps m' l1' ∧
      WfState m' l2' ∧ slistInvProps m' l2') ∧
    (∃ st m' l' out, cc_slist_remove fuel m l e out_null =
        some (st, m', l', out) ∧ WfState m' l' ∧ slistInvProps m' l') ∧
    (∃ st m' l' out, cc_slist_remove_at m l index out_null =
        some (st, m', l', out) ∧ WfState m' l' ∧ slistInvProps m' l') ∧
    (∃ st m' l' out, cc_slist_remove_first m l out_null =
        some (st, m', l', out) ∧ WfState m' l' ∧ slistInvProps m' l') ∧
    (∃ st m' l', cc_slist_remove_all fuel m l = some (st, m', l') ∧
      WfState m' l' ∧ slistInvProps m' l') ∧
    (∃ st m' out, cc_slist_replace_at m l e index out_null =
        some (st, m', out) ∧ WfState m' l ∧ slistInvProps m' l) ∧
    (∃ m' l', cc_slist_reverse fuel m l = some (m', l') ∧
      WfState m' l' ∧ slistInvProps m' l') ∧
    (∃ m' c, cc_slist_copy_shallow fuel true m l =
        some (CC_Stat.CC_OK, m', some c) ∧
      WfState m' c ∧ slistInvProps m' c ∧ WfState m' l ∧ slistInvProps m' l) := by
  refine ⟨slistWf_invProps m l ⟨as, hrep, hnd⟩, ?_, ?_, ?_, ?_, ?_, ?_, ?_, ?_,
    ?_, ?_, ?_⟩
  · obtain ⟨m', l', hrun, hrep', hnd', hwf', _, _⟩ :=
      cc_slist_add_first_spec m l as e hwf hrep hnd
    exact ⟨m', l', hrun, wf_and_props hwf' ⟨_, hrep', hnd'⟩⟩
  · obtain ⟨m', l', hrun, hrep', hnd', hwf', _, _, _⟩ :=
      cc_slist_add_last_spec m l as e hwf hrep hnd
    exact ⟨m', l', hrun, wf_and_props hwf' ⟨_, hrep', hnd'⟩⟩
  · by_cases hle : l.size ≤ index
    · exact ⟨CC_Stat.CC_ERR_OUT_OF_RANGE, m, l,
        cc_slist_add_at_oor true m l e index hle,
        wf_and_props hwf ⟨as, hrep, hnd⟩⟩
    · obtain ⟨m', l', hrun, hrep', hnd', hwf', _⟩ :=
        cc_slist_add_at_ok_spec m l as e index hwf hrep hnd (by omega)
      exact ⟨CC_Stat.CC_OK, m', l', hrun, wf_and_props hwf' ⟨_, hrep', hnd'⟩⟩
  · obtain ⟨m', l1', l2', hrun, hrep', hnd', hwf', _, hs2, hh2, ht2, _, _⟩ :=
      cc_slist_splice_spec m l l2 as as2 hwf hrep hrep2 hnd12
    have h1 := wf_and_props hwf'
      (⟨as ++ as2, hrep', hnd'⟩ : SListWf m' l1')
    have h2 := wf_and_props hwf'
      (⟨[], ⟨(chainSeg_nil_iff m' l2'.head none).mpr hh2,
        by rw [ht2]; rfl, hs2⟩, List.nodup_nil⟩ : SListWf m' l2')
    exact ⟨m', l1', l2', hrun, h1.1, h1.2, h2.1, h2.2⟩
  · obtain ⟨st, m', l', out, as', hrun, hrep', hnd', hwf', _⟩ :=
      cc_slist_remove_spec m l as e out_null fuel hwf hrep hnd hfuel
    exact ⟨st, m', l', out, hrun, wf_and_props hwf' ⟨_, hrep', hnd'⟩⟩
  · by_cases hle : l.size ≤ index
    · have hoor : cc_slist_remove_at m l index out_null =
          some (CC_Stat.CC_ERR_OUT_OF_RANGE, m, l, none) := by
        simp [cc_slist_remove_at, get_node_at, hle]
      exact ⟨CC_Stat.CC_ERR_OUT_OF_RANGE, m, l, none, hoor,
        wf_and_props hwf ⟨as, hrep, hnd⟩⟩
    · obtain ⟨nd, m', l', hrun, hrep', hnd', hwf', _⟩ :=
        cc_slist_remove_at_spec m l as index out_null hwf hrep hnd (by omega)
      exact ⟨CC_Stat.CC_OK, m', l',
        if out_null then none else some nd.data, hrun,
        wf_and_props hwf' ⟨_, hrep', hnd'⟩⟩
  · by_cases hz : l.size = 0
    · have hvnf : cc_slist_remove_first m l out_null =
          some (CC_Stat.CC_ERR_VALUE_NOT_FOUND, m, l, none) := by
        simp [cc_slist_remove_first, hz]
      exact ⟨CC_Stat.CC_ERR_VALUE_NOT_FOUND, m, l, none, hvnf,
        wf_and_props hwf ⟨as, hrep, hnd⟩⟩
    · obtain ⟨nd, m', l', n, rest, _, hrun, hrep', hnd', hwf', _⟩ :=
        cc_slist_remove_first_spec m l as out_null hwf hrep hnd hz
      exact ⟨CC_Stat.CC_OK, m', l',
        if out_null then none else some nd.data, hrun,
        wf_and_props hwf' ⟨_, hrep', hnd'⟩⟩
  · obtain ⟨st, m', l', hrun, hswf', hwf', _, _⟩ :=
      cc_slist_remove_all_spec m l as fuel hwf hrep hnd hfuel
    exact ⟨st, m', l', hrun, wf_and_props hwf' hswf'⟩
  · by_cases hle : l.size ≤ index
    · have hoor : cc_slist_replace_at m l e index out_null =
          some (CC_Stat.CC_ERR_OUT_OF_RANGE, m, none) := by
        simp [cc_slist_replace_at, get_node_at, hle]
      exact ⟨CC_Stat.CC_ERR_OUT_OF_RANGE, m, none, hoor,
        wf_and_props hwf ⟨as, hrep, hnd⟩⟩
    · obtain ⟨n, nd, m', hrun, _, hrep', hwf', _⟩ :=
        cc_slist_replace_at_spec m l as e index out_null hwf hrep (by omega)
      exact ⟨CC_Stat.CC_OK, m', if out_null then none else some nd.data,
        hrun, wf_and_props hwf' ⟨as, hrep', hnd⟩⟩
  · obtain ⟨m', l', hrun, hrep', hnd', hwf', _, _, _⟩ :=
      cc_slist_reverse_spec m l as fuel hwf hrep hnd hfuel
    exact ⟨m', l', hrun, wf_and_props hwf' ⟨_, hrep', hnd'⟩⟩
  · obtain ⟨m', copy, cas, hrun, hrepc, hndc, hwf', hrepl⟩ :=
      cc_slist_copy_shallow_spec m l as fuel hwf hrep hfuel
    have h1 := wf_and_props hwf' (⟨cas, hrepc, hndc⟩ : SListWf m' copy)
    have h2 := wf_and_props hwf' (⟨as, hrepl, hnd⟩ : SListWf m' l)
    exact ⟨m', copy, hrun, h1.1, h1.2, h2.1, h2.2⟩

theorem claim_C6_witness :
    slistInvProps memW lW1 ∧
    (∃ m' l', cc_slist_add_first true memW lW1 5 = (CC_Stat.CC_OK, m', l') ∧
      WfState m' l' ∧ slistInvProps m' l') ∧
    (∃ m' l', cc_slist_add_last true memW lW1 5 = some (CC_Stat.CC_OK, m', l') ∧
      WfState m' l' ∧ slistInvProps m' l') ∧
    (∃ st m' l', cc_slist_add_at true memW lW1 5 1 = some (st, m', l') ∧
      WfState m' l' ∧ slistInvProps m' l') ∧
    (∃ m' l1' l2',
      cc_slist_splice memW lW1 lW2 = some (CC_Stat.CC_OK, m', l1', l2') ∧
      WfState m' l1' ∧ slistInvProps m' l1' ∧
      WfState m' l2' ∧ slistInvProps m' l2') ∧
    (∃ st m' l' out, cc_slist_remove 2 memW lW1 5 false =
        some (st, m', l', out) ∧ WfState m' l' ∧ slistInvProps m' l') ∧
    (∃ st m' l' out, cc_slist_remove_at memW lW1 1 false =
        some (st, m', l', out) ∧ WfState m' l' ∧ slistInvProps m' l') ∧
    (∃ st m' l' out, cc_slist_remove_first memW lW1 false =
        some (st, m', l', out) ∧ WfState m' l' ∧ slistInvProps m' l') ∧
    (∃ st m' l', cc_slist_remove_all 2 memW lW1 = some (st, m', l') ∧
      WfState m' l' ∧ slistInvProps m' l') ∧
    (∃ st m' out, cc_slist_replace_at memW lW1 5 1 false =
        some (st, m', out) ∧ WfState m' lW1 ∧ slistInvProps m' lW1) ∧
    (∃ m' l', cc_slist_reverse 2 memW lW1 = some (m', l') ∧
      WfState m' l' ∧ slistInvProps m' l') ∧
    (∃ m' c, cc_slist_copy_shallow 2 true memW lW1 =
        some (CC_Stat.CC_OK, m', some c) ∧
      WfState m' c ∧ slistInvProps m' c ∧
      WfState m' lW1 ∧ slistInvProps m' lW1) :=
  claim_C6 memW lW1 lW2 [0, 1] [2, 3] 5 1 false 2
    (show ∀ e ∈ memW.heap, e.1 < memW.fresh by decide)
    ⟨by decide, by decide, by decide⟩ (by decide)
    ⟨by decide, by decide, by decide⟩ (by decide) (by decide)
